import Mathlib

/-
Verification of the momu-skip-list repository.

The repository contains two near-duplicate skip-list implementations:
  * src/skip_list.h      — momu::skip_list::SkipList  (per-instance mutex and mt19937)
  * src/xsf_skip_list.h  — xsf_skip_list::XSFSkipList (namespace-global mutex, global rand())

We model the pointer structure with an explicit heap: node addresses are
natural numbers, the heap is a function from addresses to optional nodes,
and `nullptr` is `Option.none`.  Traversal loops are fuel-bounded: the fuel
is the number of allocated cells, which bounds the length of any acyclic
chain.  The pseudo-random sources (`std::bernoulli_distribution` over
`std::mt19937`, and `rand() % 2`) are modelled as streams of outcomes
(`Nat → Bool`, `Nat → Nat`) with a read position.
-/

set_option autoImplicit false
set_option linter.unusedSectionVars false

namespace SkipListVerify

/-- Model of momu::skip_list::Node: a key, a value, and the forward-pointer
vector of length level + 1 (an entry is the address of the next node at that
level, or none for nullptr). -/
structure Node (K V : Type) where
  key_ : K
  value_ : V
  forward_ : List (Option Nat)

/-- The heap: addresses are natural numbers, a freed or never-allocated cell
reads as none. -/
abbrev Heap (K V : Type) := Nat → Option (Node K V)

variable {K V : Type} [LinearOrder K] [Inhabited K] [Inhabited V]

/-- Write one heap cell. -/
def hwrite (h : Heap K V) (a : Nat) (v : Option (Node K V)) : Heap K V :=
  fun b => if b = a then v else h b

/-- The forward pointer of the node at address a at level i
(node->forward_[i]); none when the cell is unallocated or the index is out of
range. -/
def fwd (h : Heap K V) (a : Nat) (i : Nat) : Option Nat :=
  match h a with
  | none => none
  | some n => n.forward_.getD i none

/-- Length of the forward vector of the node at address a (level + 1);
0 for an unallocated cell. -/
def fwdLen (h : Heap K V) (a : Nat) : Nat :=
  match h a with
  | none => 0
  | some n => n.forward_.length

/-- The key stored at address a (default for an unallocated cell). -/
def keyD (h : Heap K V) (a : Nat) : K :=
  match h a with
  | none => default
  | some n => n.key_

/-- The value stored at address a (default for an unallocated cell). -/
def valD (h : Heap K V) (a : Nat) : V :=
  match h a with
  | none => default
  | some n => n.value_

/-- Model of SkipList::create_node / the Node constructor:
forward_(level + 1, nullptr). -/
def create_node (key : K) (value : V) (level : Nat) : Node K V :=
  { key_ := key, value_ := value, forward_ := List.replicate (level + 1) none }

/-- Model of momu::skip_list::SkipList.  hsize is the allocation counter
(every allocated address is < hsize); gen_/gpos model the member mt19937
std::bernoulli_distribution(0.5) pair as a stream of coin outcomes and the
current read position. -/
structure SkipList (K V : Type) where
  max_level_ : Nat
  current_max_level_ : Nat
  header_ : Nat
  element_count_ : Nat
  heap : Heap K V
  hsize : Nat
  gen_ : Nat → Bool
  gpos : Nat

/-- The SkipList constructor: creates the header node with default key and
value at level max_level. -/
def mkSkipList (max_level : Nat) (gen : Nat → Bool) : SkipList K V :=
  { max_level_ := max_level
    current_max_level_ := 0
    header_ := 0
    element_count_ := 0
    heap := hwrite (fun _ => none) 0 (some (create_node default default max_level))
    hsize := 1
    gen_ := gen
    gpos := 0 }

/-- Model of SkipList::move_forward_in_level: advance through nodes whose key
is strictly less than the target.  The fuel bounds the number of steps; on a
well-formed heap it is never exhausted. -/
def move_forward_in_level (h : Heap K V) (key : K) : Nat → Nat → Nat → Nat
  | 0, current, _ => current
  | fuel + 1, current, level =>
    match fwd h current level with
    | none => current
    | some nxt =>
      match h nxt with
      | none => current
      | some n =>
        if n.key_ < key then move_forward_in_level h key fuel nxt level else current

/-- The descending loop of SkipList::traverse_to_level_zero: for i from
current_max_level down to 0, advance at level i. -/
def traverse_loop (h : Heap K V) (fuel : Nat) (key : K) : Nat → Nat → Nat
  | current, 0 => move_forward_in_level h key fuel current 0
  | current, i + 1 =>
    traverse_loop h fuel key (move_forward_in_level h key fuel current (i + 1)) i

/-- Model of SkipList::get_target_node: the level-0 successor of the
predecessor, if its key matches exactly. -/
def get_target_node (h : Heap K V) (predecessor : Nat) (key : K) : Option Nat :=
  match fwd h predecessor 0 with
  | none => none
  | some t =>
    match h t with
    | none => none
    | some n => if n.key_ = key then some t else none

/-- Model of SkipList::get_node_at_level_zero (textually identical to
get_target_node in the source). -/
def get_node_at_level_zero (h : Heap K V) (predecessor : Nat) (key : K) : Option Nat :=
  match fwd h predecessor 0 with
  | none => none
  | some t =>
    match h t with
    | none => none
    | some n => if n.key_ = key then some t else none

/-- Model of SkipList::traverse_and_collect_predecessors: the descending loop
that records, at each level i from the start level down to 0, the last node
whose key is strictly less than the target. -/
def traverse_and_collect (h : Heap K V) (fuel : Nat) (key : K) :
    Nat → Nat → List (Option Nat) → List (Option Nat)
  | current, 0, preds => preds.set 0 (some (move_forward_in_level h key fuel current 0))
  | current, i + 1, preds =>
    traverse_and_collect h fuel key (move_forward_in_level h key fuel current (i + 1)) i
      (preds.set (i + 1) (some (move_forward_in_level h key fuel current (i + 1))))

/-- Model of SkipList::find_node / traverse_to_level_zero. -/
def SkipList.find_node (l : SkipList K V) (key : K) : Option Nat :=
  get_target_node l.heap (traverse_loop l.heap l.hsize key l.header_ l.current_max_level_) key

/-- Model of SkipList::get. -/
def SkipList.get (l : SkipList K V) (key : K) : Option V :=
  match l.find_node key with
  | none => none
  | some a =>
    match l.heap a with
    | none => none
    | some n => some n.value_

/-- Model of SkipList::contains. -/
def SkipList.contains (l : SkipList K V) (key : K) : Bool :=
  (l.find_node key).isSome

/-- Model of SkipList::find_predecessors: a vector of max_level + 1 entries,
initialized to nullptr, filled by the descending traversal for levels
0..current_max_level. -/
def SkipList.find_predecessors (l : SkipList K V) (key : K) : List (Option Nat) :=
  traverse_and_collect l.heap l.hsize key l.header_ l.current_max_level_
    (List.replicate (l.max_level_ + 1) none)

/-- The while loop of SkipList::generate_random_level:
while (flip && level < max_level) level++.  Note that the flip is drawn
before the level bound is tested, exactly as in the short-circuit condition.
The fuel max_level + 1 is enough because every iteration past the test
increments level. -/
def coin_level_loop (max_level : Nat) (gen : Nat → Bool) : Nat → Nat → Nat → Nat × Nat
  | 0, level, p => (level, p)
  | fuel + 1, level, p =>
    if gen p then
      if level < max_level then coin_level_loop max_level gen fuel (level + 1) (p + 1)
      else (level, p + 1)
    else (level, p + 1)

/-- Model of SkipList::generate_random_level: returns the level and the new
stream position. -/
def generate_random_level (max_level : Nat) (gen : Nat → Bool) (p : Nat) : Nat × Nat :=
  coin_level_loop max_level gen (max_level + 1) 0 p

/-- Write forward_[i] of the node at address a. -/
def setFwd (h : Heap K V) (a : Nat) (i : Nat) (v : Option Nat) : Heap K V :=
  match h a with
  | none => h
  | some n => hwrite h a (some { n with forward_ := n.forward_.set i v })

/-- The loop body of SkipList::insert_node_at_all_levels at one level:
node->forward_[i] = predecessors[i]->forward_[i];
predecessors[i]->forward_[i] = node. -/
def splice_level (h : Heap K V) (nodeAddr : Nat) (preds : List (Option Nat)) (i : Nat) :
    Heap K V :=
  match preds.getD i none with
  | none => h
  | some p => setFwd (setFwd h nodeAddr i (fwd h p i)) p i (some nodeAddr)

/-- Model of SkipList::insert_node_at_all_levels: splice the new node in at
every level 0..level. -/
def insert_node_at_all_levels (h : Heap K V) (nodeAddr : Nat) (preds : List (Option Nat))
    (level : Nat) : Heap K V :=
  (List.range (level + 1)).foldl (fun hh i => splice_level hh nodeAddr preds i) h

/-- Model of SkipList::adjust_max_level_for_insertion: when the drawn level
exceeds the current maximum, the header becomes the predecessor at the new
levels and the current maximum is raised. -/
def adjust_max_level_for_insertion (cml new_level header : Nat)
    (preds : List (Option Nat)) : Nat × List (Option Nat) :=
  if cml < new_level then
    (new_level,
      (List.range' (cml + 1) (new_level - cml)).foldl
        (fun ps i => ps.set i (some header)) preds)
  else (cml, preds)

/-- Model of SkipList::insert_new_node: draw a random level, adjust the
current maximum, allocate the node at a fresh address, splice it in and
increment element_count_. -/
def SkipList.insert_new_node (l : SkipList K V) (key : K) (value : V)
    (preds : List (Option Nat)) : SkipList K V :=
  let rl := generate_random_level l.max_level_ l.gen_ l.gpos
  let ap := adjust_max_level_for_insertion l.current_max_level_ rl.1 l.header_ preds
  let h1 := hwrite l.heap l.hsize (some (create_node key value rl.1))
  { l with
    heap := insert_node_at_all_levels h1 l.hsize ap.2 rl.1
    hsize := l.hsize + 1
    current_max_level_ := ap.1
    element_count_ := l.element_count_ + 1
    gpos := rl.2 }

/-- Model of SkipList::update_existing_node: overwrite the stored value in
place. -/
def update_existing_node (h : Heap K V) (a : Nat) (value : V) : Heap K V :=
  match h a with
  | none => h
  | some n => hwrite h a (some { n with value_ := value })

/-- Model of SkipList::put. -/
def SkipList.put (l : SkipList K V) (key : K) (value : V) : SkipList K V :=
  let predecessors := l.find_predecessors key
  match predecessors.getD 0 none with
  | none => l
  | some p0 =>
    match get_node_at_level_zero l.heap p0 key with
    | some existing => { l with heap := update_existing_node l.heap existing value }
    | none => l.insert_new_node key value predecessors

/-- Model of SkipList::disconnect_node_from_levels: for each level
0..current_max_level, unlink the node where the predecessor points at it. -/
def disconnect_node_from_levels (h : Heap K V) (nodeAddr : Nat)
    (preds : List (Option Nat)) (cml : Nat) : Heap K V :=
  (List.range (cml + 1)).foldl
    (fun hh i =>
      match preds.getD i none with
      | none => hh
      | some p =>
        if fwd hh p i = some nodeAddr then setFwd hh p i (fwd hh nodeAddr i) else hh)
    h

/-- Model of SkipList::delete_node: disconnect, free the cell, decrement the
count (the count decrement lives in SkipList.remove in the model). -/
def delete_node (h : Heap K V) (nodeAddr : Nat) (preds : List (Option Nat)) (cml : Nat) :
    Heap K V :=
  hwrite (disconnect_node_from_levels h nodeAddr preds cml) nodeAddr none

/-- Model of SkipList::adjust_max_level: while current_max_level > 0 and the
header has no successor there, decrement it. -/
def adjust_max_level (h : Heap K V) (header : Nat) : Nat → Nat
  | 0 => 0
  | cml + 1 =>
    if fwd h header (cml + 1) = none then adjust_max_level h header cml else cml + 1

/-- Model of SkipList::remove: returns the new state and the boolean result. -/
def SkipList.remove (l : SkipList K V) (key : K) : SkipList K V × Bool :=
  let predecessors := l.find_predecessors key
  match predecessors.getD 0 none with
  | none => (l, false)
  | some p0 =>
    match get_node_at_level_zero l.heap p0 key with
    | none => (l, false)
    | some nodeAddr =>
      let h1 := delete_node l.heap nodeAddr predecessors l.current_max_level_
      ({ l with
          heap := h1
          current_max_level_ := adjust_max_level h1 l.header_ l.current_max_level_
          element_count_ := l.element_count_ - 1 }, true)

/-- Model of SkipList::size. -/
def SkipList.size (l : SkipList K V) : Nat := l.element_count_

/-- Model of SkipList::empty. -/
def SkipList.isEmpty (l : SkipList K V) : Bool := l.element_count_ == 0

/-- Fuel-bounded computation of the forward chain at level i starting after
address a: none when the fuel runs out before the chain ends (only possible
for a cyclic or over-long pointer structure), otherwise the list of
successively linked addresses. -/
def chainAtO (h : Heap K V) (i : Nat) : Nat → Nat → Option (List Nat)
  | 0, _ => none
  | fuel + 1, a =>
    match fwd h a i with
    | none => some []
    | some b => (chainAtO h i fuel b).map (b :: ·)

/-- The chain reachable from the header at level i (with sufficient fuel:
any terminating chain visits pairwise distinct addresses, all but possibly
the last allocated, so its length is at most hsize + 1). -/
def levelChainO (l : SkipList K V) (i : Nat) : Option (List Nat) :=
  chainAtO l.heap i (l.hsize + 2) l.header_

/-- The level-0 chain of the list (the node addresses in key order). -/
def chain0 (l : SkipList K V) : List Nat := (levelChainO l 0).getD []

/-- Relational version of the forward chain: from address a, the successor
links at level i traverse exactly the addresses in the list and end at a
node (or the header) with no successor. -/
inductive IsChain (h : Heap K V) (i : Nat) : Nat → List Nat → Prop where
  | nil : ∀ {a}, fwd h a i = none → IsChain h i a []
  | cons : ∀ {a b c}, fwd h a i = some b → IsChain h i b c → IsChain h i a (b :: c)

/-- Path relation: from address a, following the links at level i visits
exactly the addresses of t and ends at c (c is the last of t, or a itself
when t is empty); c may have further successors. -/
inductive Steps (h : Heap K V) (i : Nat) : Nat → List Nat → Nat → Prop where
  | refl : ∀ {a}, Steps h i a [] a
  | cons : ∀ {a b t c}, fwd h a i = some b → Steps h i b t c → Steps h i a (b :: t) c

theorem chainAtO_isChain {h : Heap K V} {i : Nat} :
    ∀ {fuel a c}, chainAtO h i fuel a = some c → IsChain h i a c := by
  intro fuel
  induction fuel with
  | zero => intro a c hc; simp [chainAtO] at hc
  | succ fuel ih =>
    intro a c hc
    unfold chainAtO at hc
    cases hfa : fwd h a i with
    | none =>
      rw [hfa] at hc
      simp at hc
      subst hc
      exact IsChain.nil hfa
    | some b =>
      rw [hfa] at hc
      simp at hc
      obtain ⟨c', hc', rfl⟩ := hc
      exact IsChain.cons hfa (ih hc')

theorem isChain_chainAtO {h : Heap K V} {i : Nat} :
    ∀ {a c}, IsChain h i a c → ∀ {fuel}, c.length < fuel → chainAtO h i fuel a = some c := by
  intro a c hc
  induction hc with
  | nil hfa =>
    intro fuel hfuel
    cases fuel with
    | zero => omega
    | succ fuel => simp [chainAtO, hfa]
  | cons hfa _ ih =>
    intro fuel hfuel
    cases fuel with
    | zero => omega
    | succ fuel =>
      simp only [chainAtO, hfa]
      rw [ih (by simpa using Nat.lt_of_succ_lt_succ hfuel)]
      rfl

theorem isChain_unique {h : Heap K V} {i : Nat} :
    ∀ {a c}, IsChain h i a c → ∀ {c'}, IsChain h i a c' → c = c' := by
  intro a c hc
  induction hc with
  | nil hfa =>
    intro c' hc'
    cases hc' with
    | nil _ => rfl
    | cons hfa' _ => rw [hfa] at hfa'; cases hfa'
  | cons hfa _ ih =>
    intro c' hc'
    cases hc' with
    | nil hfa' => rw [hfa] at hfa'; cases hfa'
    | cons hfa' htail =>
      rw [hfa] at hfa'
      cases hfa'
      rw [ih htail]

theorem steps_getLastD {h : Heap K V} {i : Nat} :
    ∀ {a t c}, Steps h i a t c → t.getLastD a = c := by
  intro a t c hs
  induction hs with
  | refl => rfl
  | cons _ _ ih => rw [List.getLastD_cons]; exact ih

/-- Splitting a chain: the first part is a path ending at its last element,
the rest is a chain from there. -/
theorem isChain_append {h : Heap K V} {i : Nat} :
    ∀ {t a d}, IsChain h i a (t ++ d) →
      Steps h i a t (t.getLastD a) ∧ IsChain h i (t.getLastD a) d := by
  intro t
  induction t with
  | nil => intro a d hc; exact ⟨Steps.refl, hc⟩
  | cons b t ih =>
    intro a d hc
    cases hc with
    | cons hfa htail =>
      obtain ⟨hs, hcd⟩ := ih htail
      rw [List.getLastD_cons]
      exact ⟨Steps.cons hfa hs, hcd⟩

/-- Joining a path and a chain. -/
theorem steps_isChain_append {h : Heap K V} {i : Nat} :
    ∀ {a t c d}, Steps h i a t c → IsChain h i c d → IsChain h i a (t ++ d) := by
  intro a t c d hs
  induction hs with
  | refl => exact fun hd => hd
  | cons hfa _ ih => exact fun hd => IsChain.cons hfa (ih hd)

/-- A path only reads the forward pointers of its non-final positions. -/
theorem steps_congr {h h' : Heap K V} {i : Nat} :
    ∀ {a t c}, Steps h i a t c →
      (∀ x ∈ (a :: t).dropLast, fwd h' x i = fwd h x i) → Steps h' i a t c := by
  intro a t c hs
  induction hs with
  | refl => intro _; exact Steps.refl
  | @cons a b t c hfa _ ih =>
    intro hagree
    have hab : fwd h' a i = fwd h a i := by
      apply hagree
      cases t <;> simp
    refine Steps.cons (hab.trans hfa) (ih ?_)
    intro x hx
    apply hagree
    cases t with
    | nil => simp at hx
    | cons u t' => simpa using Or.inr hx

/-- A chain reads the forward pointers of its start and of all its
elements. -/
theorem isChain_congr {h h' : Heap K V} {i : Nat} :
    ∀ {a c}, IsChain h i a c →
      (∀ x ∈ a :: c, fwd h' x i = fwd h x i) → IsChain h' i a c := by
  intro a c hc
  induction hc with
  | @nil a hfa =>
    intro hagree
    exact IsChain.nil ((hagree a (by simp)).trans hfa)
  | @cons a b c hfa _ ih =>
    intro hagree
    refine IsChain.cons ((hagree a (by simp)).trans hfa) (ih ?_)
    intro x hx
    apply hagree
    simp at hx ⊢
    tauto

/-- The chain from an interior element is the corresponding suffix. -/
theorem isChain_suffix {h : Heap K V} {i : Nat} {a p : Nat} {u w : List Nat}
    (hc : IsChain h i a (u ++ p :: w)) : IsChain h i p w := by
  have h1 : u ++ p :: w = (u ++ [p]) ++ w := by simp
  rw [h1] at hc
  have h2 := (isChain_append hc).2
  simpa using h2

theorem hwrite_self (h : Heap K V) (a : Nat) (v : Option (Node K V)) :
    hwrite h a v a = v := by simp [hwrite]

theorem hwrite_other (h : Heap K V) {a b : Nat} (v : Option (Node K V)) (hne : b ≠ a) :
    hwrite h a v b = h b := by simp [hwrite, hne]

theorem getD_set_self {α : Type} :
    ∀ (l : List α) (i : Nat) (v d : α), i < l.length → (l.set i v).getD i d = v := by
  intro l
  induction l with
  | nil => intro i v d hi; simp at hi
  | cons x l ih =>
    intro i v d hi
    cases i with
    | zero => rfl
    | succ i => simpa [List.set, List.getD] using ih i v d (by simpa using hi)

theorem getD_set_other {α : Type} :
    ∀ (l : List α) (i j : Nat) (v d : α), i ≠ j → (l.set i v).getD j d = l.getD j d := by
  intro l
  induction l with
  | nil => intro i j v d _; simp [List.set]
  | cons x l ih =>
    intro i j v d hij
    cases i with
    | zero =>
      cases j with
      | zero => exact absurd rfl hij
      | succ j => rfl
    | succ i =>
      cases j with
      | zero => rfl
      | succ j => simpa [List.set, List.getD] using ih i j v d (by omega)

theorem fwd_hwrite_ne {h : Heap K V} {m b : Nat} (v : Option (Node K V)) (j : Nat)
    (hne : b ≠ m) : fwd (hwrite h m v) b j = fwd h b j := by
  unfold fwd
  rw [hwrite_other _ _ hne]

theorem fwd_hwrite_self {h : Heap K V} {m : Nat} (n : Node K V) (j : Nat) :
    fwd (hwrite h m (some n)) m j = n.forward_.getD j none := by
  unfold fwd
  rw [hwrite_self]

theorem fwd_hwrite_none {h : Heap K V} {m : Nat} (j : Nat) :
    fwd (hwrite h m none) m j = none := by
  unfold fwd
  rw [hwrite_self]

theorem keyD_hwrite_ne {h : Heap K V} {m b : Nat} (v : Option (Node K V)) (hne : b ≠ m) :
    keyD (hwrite h m v) b = keyD h b := by
  unfold keyD
  rw [hwrite_other _ _ hne]

theorem valD_hwrite_ne {h : Heap K V} {m b : Nat} (v : Option (Node K V)) (hne : b ≠ m) :
    valD (hwrite h m v) b = valD h b := by
  unfold valD
  rw [hwrite_other _ _ hne]

theorem fwdLen_hwrite_ne {h : Heap K V} {m b : Nat} (v : Option (Node K V)) (hne : b ≠ m) :
    fwdLen (hwrite h m v) b = fwdLen h b := by
  unfold fwdLen
  rw [hwrite_other _ _ hne]

theorem isSome_hwrite_ne {h : Heap K V} {m b : Nat} (v : Option (Node K V)) (hne : b ≠ m) :
    (hwrite h m v b).isSome = (h b).isSome := by
  rw [hwrite_other _ _ hne]

theorem setFwd_of_none {h : Heap K V} {a : Nat} (i : Nat) (v : Option Nat)
    (hna : h a = none) : setFwd h a i v = h := by
  simp [setFwd, hna]

theorem fwd_setFwd_ne {h : Heap K V} {a i b j : Nat} {v : Option Nat}
    (hne : b ≠ a ∨ j ≠ i) : fwd (setFwd h a i v) b j = fwd h b j := by
  unfold setFwd
  cases hna : h a with
  | none => rfl
  | some n =>
    rcases hne with hb | hj
    · exact fwd_hwrite_ne _ _ hb
    · by_cases hb : b = a
      · subst hb
        rw [fwd_hwrite_self]
        unfold fwd
        rw [hna]
        exact getD_set_other _ _ _ _ _ (Ne.symm hj)
      · exact fwd_hwrite_ne _ _ hb

theorem fwd_setFwd_self {h : Heap K V} {a i : Nat} {v : Option Nat}
    (hlen : i < fwdLen h a) : fwd (setFwd h a i v) a i = v := by
  unfold setFwd
  cases hna : h a with
  | none => simp [fwdLen, hna] at hlen
  | some n =>
    rw [fwd_hwrite_self]
    apply getD_set_self
    simpa [fwdLen, hna] using hlen

theorem fwdLen_setFwd {h : Heap K V} {a : Nat} (i : Nat) (v : Option Nat) (b : Nat) :
    fwdLen (setFwd h a i v) b = fwdLen h b := by
  unfold setFwd
  cases hna : h a with
  | none => rfl
  | some n =>
    by_cases hb : b = a
    · subst hb
      simp [fwdLen, hwrite_self, hna]
    · dsimp only
      unfold fwdLen
      rw [hwrite_other _ _ hb]

theorem keyD_setFwd {h : Heap K V} {a : Nat} (i : Nat) (v : Option Nat) (b : Nat) :
    keyD (setFwd h a i v) b = keyD h b := by
  unfold setFwd
  cases hna : h a with
  | none => rfl
  | some n =>
    by_cases hb : b = a
    · subst hb
      simp [keyD, hwrite_self, hna]
    · dsimp only
      unfold keyD
      rw [hwrite_other _ _ hb]

theorem valD_setFwd {h : Heap K V} {a : Nat} (i : Nat) (v : Option Nat) (b : Nat) :
    valD (setFwd h a i v) b = valD h b := by
  unfold setFwd
  cases hna : h a with
  | none => rfl
  | some n =>
    by_cases hb : b = a
    · subst hb
      simp [valD, hwrite_self, hna]
    · dsimp only
      unfold valD
      rw [hwrite_other _ _ hb]

theorem isSome_setFwd {h : Heap K V} {a : Nat} (i : Nat) (v : Option Nat) (b : Nat) :
    ((setFwd h a i v) b).isSome = (h b).isSome := by
  unfold setFwd
  cases hna : h a with
  | none => rfl
  | some n =>
    by_cases hb : b = a
    · subst hb
      simp [hwrite_self, hna]
    · dsimp only
      rw [hwrite_other _ _ hb]

theorem fwd_update_existing {h : Heap K V} {a : Nat} (value : V) (b j : Nat) :
    fwd (update_existing_node h a value) b j = fwd h b j := by
  unfold update_existing_node
  cases hna : h a with
  | none => rfl
  | some n =>
    by_cases hb : b = a
    · subst hb
      rw [fwd_hwrite_self]
      unfold fwd
      rw [hna]
    · exact fwd_hwrite_ne _ _ hb

theorem fwdLen_update_existing {h : Heap K V} {a : Nat} (value : V) (b : Nat) :
    fwdLen (update_existing_node h a value) b = fwdLen h b := by
  unfold update_existing_node
  cases hna : h a with
  | none => rfl
  | some n =>
    by_cases hb : b = a
    · subst hb
      simp [fwdLen, hwrite_self, hna]
    · dsimp only
      unfold fwdLen
      rw [hwrite_other _ _ hb]

theorem keyD_update_existing {h : Heap K V} {a : Nat} (value : V) (b : Nat) :
    keyD (update_existing_node h a value) b = keyD h b := by
  unfold update_existing_node
  cases hna : h a with
  | none => rfl
  | some n =>
    by_cases hb : b = a
    · subst hb
      simp [keyD, hwrite_self, hna]
    · dsimp only
      unfold keyD
      rw [hwrite_other _ _ hb]

theorem valD_update_existing_self {h : Heap K V} {a : Nat} (value : V)
    (hs : (h a).isSome = true) : valD (update_existing_node h a value) a = value := by
  unfold update_existing_node
  cases hna : h a with
  | none => rw [hna] at hs; simp at hs
  | some n => simp [valD, hwrite_self]

theorem valD_update_existing_ne {h : Heap K V} {a b : Nat} (value : V) (hne : b ≠ a) :
    valD (update_existing_node h a value) b = valD h b := by
  unfold update_existing_node
  cases hna : h a with
  | none => rfl
  | some n =>
    dsimp only
    unfold valD
    rw [hwrite_other _ _ hne]

theorem isSome_update_existing {h : Heap K V} {a : Nat} (value : V) (b : Nat) :
    ((update_existing_node h a value) b).isSome = (h b).isSome := by
  unfold update_existing_node
  cases hna : h a with
  | none => rfl
  | some n =>
    by_cases hb : b = a
    · subst hb
      simp [hwrite_self, hna]
    · dsimp only
      rw [hwrite_other _ _ hb]

theorem length_le_of_nodup_lt {l : List Nat} {n : Nat}
    (hn : l.Nodup) (hb : ∀ x ∈ l, x < n) : l.length ≤ n := by
  classical
  have h1 : l.toFinset ⊆ Finset.range n := by
    intro x hx
    rw [List.mem_toFinset] at hx
    exact Finset.mem_range.mpr (hb x hx)
  have h2 := Finset.card_le_card h1
  rwa [List.toFinset_card_of_nodup hn, Finset.card_range] at h2

/-- Test used to cut the level-0 chain down to the level-i chain: the node at
address a participates in level i exactly when its forward vector is longer
than i. -/
def nodeLevelGt (h : Heap K V) (i : Nat) : Nat → Bool :=
  fun a => decide (i < fwdLen h a)

/-- Test for "the stored key is strictly below the search key". -/
def keyLt (h : Heap K V) (key : K) : Nat → Bool :=
  fun a => decide (keyD h a < key)

/-- The sub-list of the level-0 chain made of nodes participating in
level i. -/
def levelFilter (l : SkipList K V) (i : Nat) : List Nat :=
  (chain0 l).filter (nodeLevelGt l.heap i)

/-- The predecessor the search computes at level i: the last node of the
level-i chain with key strictly below the search key, or the header. -/
def predAtLevel (l : SkipList K V) (key : K) (i : Nat) : Nat :=
  ((levelFilter l i).takeWhile (keyLt l.heap key)).getLastD l.header_

/-- The key-value pairs stored along the level-0 chain, in key order. -/
def entries (l : SkipList K V) : List (K × V) :=
  (chain0 l).map (fun a => (keyD l.heap a, valD l.heap a))

/-- The keys stored in the list, in order. -/
def keysOf (l : SkipList K V) : List K :=
  (chain0 l).map (keyD l.heap)

/-- First-match association-list lookup, the functional specification that
get is proved against. -/
def lookupKey (key : K) : List (K × V) → Option V
  | [] => none
  | e :: rest => if e.1 = key then some e.2 else lookupKey key rest

/-- The structural invariant of a skip-list state (spec section 3):
current_max_level is bounded by max_level; the header is an allocated node
with max_level + 1 forward slots; for every level i the chain reachable from
the header is exactly the sub-list of the level-0 chain made of the nodes
participating in level i; the chain addresses are allocated, distinct and
distinct from the header; keys are strictly increasing along the level-0
chain; element_count is the length of the level-0 chain; every node
participates only in levels up to current_max_level; and the level at
current_max_level is non-empty unless current_max_level is 0. -/
structure WF (l : SkipList K V) : Prop where
  cml_le : l.current_max_level_ ≤ l.max_level_
  header_lt : l.header_ < l.hsize
  header_len : fwdLen l.heap l.header_ = l.max_level_ + 1
  chain_ok : ∀ i, i ≤ l.max_level_ → levelChainO l i = some (levelFilter l i)
  valid : ∀ a ∈ chain0 l, a < l.hsize ∧ (l.heap a).isSome = true ∧ a ≠ l.header_
  nodup : (l.header_ :: chain0 l).Nodup
  sorted : ((chain0 l).map (keyD l.heap)).Chain' (· < ·)
  count : l.element_count_ = (chain0 l).length
  levels_le : ∀ a ∈ chain0 l, fwdLen l.heap a ≤ l.current_max_level_ + 1
  top_nonempty : l.current_max_level_ = 0 ∨ levelFilter l l.current_max_level_ ≠ []

theorem WF.isChain_level {l : SkipList K V} (hw : WF l) {i : Nat} (hi : i ≤ l.max_level_) :
    IsChain l.heap i l.header_ (levelFilter l i) :=
  chainAtO_isChain (hw.chain_ok i hi)

theorem WF.chain0_eq_filter {l : SkipList K V} (hw : WF l) :
    chain0 l = levelFilter l 0 := by
  have h0 := hw.chain_ok 0 (Nat.zero_le _)
  unfold chain0 at *
  rw [h0]
  rfl

theorem WF.isChain_zero {l : SkipList K V} (hw : WF l) :
    IsChain l.heap 0 l.header_ (chain0 l) := by
  rw [hw.chain0_eq_filter]
  exact hw.isChain_level (Nat.zero_le _)

theorem WF.pairwise_keys {l : SkipList K V} (hw : WF l) :
    (chain0 l).Pairwise (fun a b => keyD l.heap a < keyD l.heap b) := by
  have hs := hw.sorted
  rw [List.chain'_iff_pairwise, List.pairwise_map] at hs
  exact hs

theorem WF.chain0_nodup {l : SkipList K V} (hw : WF l) : (chain0 l).Nodup :=
  (List.nodup_cons.mp hw.nodup).2

theorem WF.header_not_mem {l : SkipList K V} (hw : WF l) : l.header_ ∉ chain0 l :=
  (List.nodup_cons.mp hw.nodup).1

theorem WF.chain0_length_le {l : SkipList K V} (hw : WF l) :
    (chain0 l).length ≤ l.hsize :=
  length_le_of_nodup_lt hw.chain0_nodup (fun a ha => (hw.valid a ha).1)

theorem sorted_takeWhile_eq_filter {α : Type} {r : α → α → Prop} {p : α → Bool}
    (hmono : ∀ a b, r a b → p a = false → p b = false) :
    ∀ {l : List α}, l.Pairwise r → l.takeWhile p = l.filter p := by
  intro l
  induction l with
  | nil => intro _; rfl
  | cons a l ih =>
    intro hp
    rw [List.pairwise_cons] at hp
    cases hpa : p a with
    | true => simp [List.takeWhile_cons, List.filter_cons, hpa, ih hp.2]
    | false =>
      have hall : ∀ b ∈ l, p b = false := fun b hb => hmono a b (hp.1 b hb) hpa
      simp only [List.takeWhile_cons, List.filter_cons, hpa]
      simp only [Bool.false_eq_true, if_false, cond_false]
      symm
      rw [List.filter_eq_nil_iff]
      intro b hb
      simp [hall b hb]

theorem sorted_dropWhile_eq_filter {α : Type} {r : α → α → Prop} {p : α → Bool}
    (hmono : ∀ a b, r a b → p a = false → p b = false) :
    ∀ {l : List α}, l.Pairwise r → l.dropWhile p = l.filter (fun a => !p a) := by
  intro l
  induction l with
  | nil => intro _; rfl
  | cons a l ih =>
    intro hp
    rw [List.pairwise_cons] at hp
    cases hpa : p a with
    | true => simp [List.dropWhile_cons, List.filter_cons, hpa, ih hp.2]
    | false =>
      have hall : ∀ b ∈ l, p b = false := fun b hb => hmono a b (hp.1 b hb) hpa
      simp only [List.dropWhile_cons, List.filter_cons, hpa]
      simp only [Bool.false_eq_true, if_false, Bool.not_false, cond_true]
      congr 1
      symm
      rw [List.filter_eq_self]
      intro b hb
      simp [hall b hb]

theorem takeWhile_append_all {α : Type} {p : α → Bool} :
    ∀ {u v : List α}, (∀ x ∈ u, p x = true) → (u ++ v).takeWhile p = u ++ v.takeWhile p := by
  intro u
  induction u with
  | nil => intro v _; rfl
  | cons a u ih =>
    intro v hu
    have hpa : p a = true := hu a (by simp)
    simp only [List.cons_append, List.takeWhile_cons, hpa]
    simp [ih (fun x hx => hu x (by simp [hx]))]

theorem takeWhile_eq_nil_of_all_false {α : Type} {p : α → Bool} :
    ∀ {v : List α}, (∀ x ∈ v, p x = false) → v.takeWhile p = [] := by
  intro v hv
  cases v with
  | nil => rfl
  | cons a v => simp [List.takeWhile_cons, hv a (by simp)]

theorem getLastD_append_cons {α : Type} :
    ∀ (u : List α) (a : α) (w : List α) (d : α), (u ++ a :: w).getLastD d = w.getLastD a := by
  intro u
  induction u with
  | nil => intro a w d; exact List.getLastD_cons _ _ _
  | cons x u ih =>
    intro a w d
    rw [List.cons_append, List.getLastD_cons]
    exact ih a w x

theorem getD_replicate {α : Type} (d : α) :
    ∀ (n m : Nat), (List.replicate n d).getD m d = d := by
  intro n
  induction n with
  | zero => intro m; simp [List.getD]
  | succ n ih =>
    intro m
    cases m with
    | zero => rfl
    | succ m => simpa [List.replicate_succ] using ih m

/-- Specification of one horizontal advance (the while loop of
move_forward_in_level): starting at address a whose forward chain at level i
is c (all of it allocated), the loop stops at the last node of the chain
whose key is strictly below the search key, and the remaining chain from the
stopping point is the corresponding suffix. -/
theorem move_forward_spec {h : Heap K V} {i : Nat} (key : K) :
    ∀ {c : List Nat} {a fuel : Nat}, IsChain h i a c →
      (∀ b ∈ c, (h b).isSome = true) → c.length ≤ fuel →
      move_forward_in_level h key fuel a i = (c.takeWhile (keyLt h key)).getLastD a ∧
      IsChain h i ((c.takeWhile (keyLt h key)).getLastD a) (c.dropWhile (keyLt h key)) := by
  intro c
  induction c with
  | nil =>
    intro a fuel hc _ _
    cases hc with
    | nil hfa =>
      refine ⟨?_, IsChain.nil hfa⟩
      cases fuel with
      | zero => rfl
      | succ fuel => simp [move_forward_in_level, hfa]
  | cons b c ih =>
    intro a fuel hc hval hfuel
    cases hc with
    | cons hfa htail =>
      cases fuel with
      | zero => simp at hfuel
      | succ fuel =>
        have hb : (h b).isSome = true := hval b (by simp)
        obtain ⟨n, hn⟩ := Option.isSome_iff_exists.mp hb
        have hkd : keyD h b = n.key_ := by simp [keyD, hn]
        by_cases hk : n.key_ < key
        · have hklt : keyLt h key b = true := by simp [keyLt, hkd, hk]
          have hlenc : c.length ≤ fuel := by simp at hfuel; omega
          have hrec := ih htail
            (fun x hx => hval x (by simp [hx])) hlenc
          have htw : (b :: c).takeWhile (keyLt h key) = b :: c.takeWhile (keyLt h key) := by
            simp [List.takeWhile_cons, hklt]
          have hdw : (b :: c).dropWhile (keyLt h key) = c.dropWhile (keyLt h key) := by
            simp [List.dropWhile_cons, hklt]
          refine ⟨?_, ?_⟩
          · simp only [move_forward_in_level, hfa, hn, if_pos hk]
            rw [htw, List.getLastD_cons]
            exact hrec.1
          · rw [htw, hdw, List.getLastD_cons]
            exact hrec.2
        · have hklt : keyLt h key b = false := by simp [keyLt, hkd, hk]
          have htw : (b :: c).takeWhile (keyLt h key) = [] := by
            simp [List.takeWhile_cons, hklt]
          have hdw : (b :: c).dropWhile (keyLt h key) = b :: c := by
            simp [List.dropWhile_cons, hklt]
          refine ⟨?_, ?_⟩
          · simp only [move_forward_in_level, hfa, hn, if_neg hk]
            rw [htw]
            rfl
          · rw [htw, hdw]
            exact IsChain.cons hfa htail

theorem levelFilter_sub {l : SkipList K V} {i : Nat} :
    ∀ x ∈ levelFilter l i, x ∈ chain0 l :=
  fun x hx => (List.mem_filter.mp hx).1

theorem levelFilter_pairwise {l : SkipList K V} (hw : WF l) (i : Nat) :
    (levelFilter l i).Pairwise (fun a b => keyD l.heap a < keyD l.heap b) :=
  List.Pairwise.sublist (List.filter_sublist _) hw.pairwise_keys

theorem keyLt_mono {l : SkipList K V} (key : K) :
    ∀ a b, keyD l.heap a < keyD l.heap b →
      keyLt l.heap key a = false → keyLt l.heap key b = false := by
  intro a b hab ha
  simp only [keyLt, decide_eq_false_iff_not, not_lt] at *
  exact le_trans ha (le_of_lt hab)

theorem levelFilter_succ {l : SkipList K V} (i : Nat) :
    levelFilter l (i + 1) = (levelFilter l i).filter (nodeLevelGt l.heap (i + 1)) := by
  unfold levelFilter
  rw [List.filter_comm, List.filter_filter]
  apply List.filter_congr
  intro a _
  by_cases h1 : i + 1 < fwdLen l.heap a
  · have h2 : i < fwdLen l.heap a := by omega
    simp [nodeLevelGt, h1, h2]
  · simp [nodeLevelGt, h1]

/-- The crux of the top-down search: moving horizontally at level i from the
level-(i+1) predecessor reaches the level-i predecessor. -/
theorem pred_step {l : SkipList K V} (hw : WF l) (key : K) {i : Nat}
    (hi : i ≤ l.max_level_) :
    move_forward_in_level l.heap key l.hsize (predAtLevel l key (i + 1)) i =
      predAtLevel l key i := by
  have hchain : IsChain l.heap i l.header_ (levelFilter l i) := hw.isChain_level hi
  have hval : ∀ b ∈ levelFilter l i, (l.heap b).isSome = true :=
    fun b hb => (hw.valid b (levelFilter_sub b hb)).2.1
  have hlen : (levelFilter l i).length ≤ l.hsize :=
    le_trans (List.length_filter_le _ _) hw.chain0_length_le
  have hpair := levelFilter_pairwise hw i
  have htfilter : (levelFilter l i).takeWhile (keyLt l.heap key) =
      (levelFilter l i).filter (keyLt l.heap key) :=
    sorted_takeWhile_eq_filter (keyLt_mono key) hpair
  have htsucc : (levelFilter l (i + 1)).takeWhile (keyLt l.heap key) =
      ((levelFilter l i).takeWhile (keyLt l.heap key)).filter (nodeLevelGt l.heap (i + 1)) := by
    have hpair' := levelFilter_pairwise hw (i + 1)
    rw [sorted_takeWhile_eq_filter (keyLt_mono key) hpair', levelFilter_succ,
      List.filter_comm, htfilter]
  rcases List.eq_nil_or_concat ((levelFilter l (i + 1)).takeWhile (keyLt l.heap key)) with
    hnil | ⟨u', pstar, hconcat⟩
  · have hpred : predAtLevel l key (i + 1) = l.header_ := by
      unfold predAtLevel
      rw [hnil]
      rfl
    rw [hpred]
    exact (move_forward_spec key hchain hval hlen).1
  · have hpred : predAtLevel l key (i + 1) = pstar := by
      unfold predAtLevel
      rw [hconcat, List.concat_eq_append, getLastD_append_cons]
      rfl
    have hpmem : pstar ∈ (levelFilter l i).takeWhile (keyLt l.heap key) := by
      have : pstar ∈ (levelFilter l (i + 1)).takeWhile (keyLt l.heap key) := by
        rw [hconcat, List.concat_eq_append]; simp
      rw [htsucc] at this
      exact (List.mem_filter.mp this).1
    obtain ⟨u, w, hdecomp⟩ := List.append_of_mem hpmem
    have hci : levelFilter l i = u ++ pstar ::
        (w ++ (levelFilter l i).dropWhile (keyLt l.heap key)) := by
      conv_lhs => rw [← List.takeWhile_append_dropWhile
        (p := keyLt l.heap key) (l := levelFilter l i)]
      rw [hdecomp]
      simp
    have hcsuffix : IsChain l.heap i pstar
        (w ++ (levelFilter l i).dropWhile (keyLt l.heap key)) := by
      apply isChain_suffix (u := u)
      rw [← hci]
      exact hchain
    have hwmem : ∀ x ∈ w, x ∈ levelFilter l i := by
      intro x hx
      rw [hci]
      simp [hx]
    have hdmem : ∀ x ∈ (levelFilter l i).dropWhile (keyLt l.heap key),
        x ∈ levelFilter l i := fun x hx => (List.dropWhile_sublist _).mem hx
    have hval' : ∀ b ∈ w ++ (levelFilter l i).dropWhile (keyLt l.heap key),
        (l.heap b).isSome = true := by
      intro b hb
      rcases List.mem_append.mp hb with hb | hb
      · exact hval b (hwmem b hb)
      · exact hval b (hdmem b hb)
    have hlen' : (w ++ (levelFilter l i).dropWhile (keyLt l.heap key)).length ≤ l.hsize := by
      have h1 : (levelFilter l i).length =
          u.length + 1 + (w ++ (levelFilter l i).dropWhile (keyLt l.heap key)).length := by
        conv_lhs => rw [hci]
        simp
        omega
      omega
    have hmove := (move_forward_spec key hcsuffix hval' hlen').1
    rw [hpred, hmove]
    have hwtrue : ∀ x ∈ w, keyLt l.heap key x = true := by
      intro x hx
      have hxt : x ∈ (levelFilter l i).takeWhile (keyLt l.heap key) := by
        rw [hdecomp]
        simp [hx]
      rw [htfilter] at hxt
      exact (List.mem_filter.mp hxt).2
    have hdfalse : ∀ x ∈ (levelFilter l i).dropWhile (keyLt l.heap key),
        keyLt l.heap key x = false := by
      intro x hx
      rw [sorted_dropWhile_eq_filter (keyLt_mono key) hpair] at hx
      have := (List.mem_filter.mp hx).2
      simpa using this
    rw [takeWhile_append_all hwtrue, takeWhile_eq_nil_of_all_false hdfalse,
      List.append_nil]
    unfold predAtLevel
    rw [hdecomp, getLastD_append_cons]

/-- Above the current maximum level both the level chain and its takeWhile
are empty, so the incoming position of the top level of the search is the
header itself. -/
theorem predAtLevel_top {l : SkipList K V} (hw : WF l) (key : K) :
    predAtLevel l key (l.current_max_level_ + 1) = l.header_ := by
  unfold predAtLevel levelFilter
  have hnil : (chain0 l).filter (nodeLevelGt l.heap (l.current_max_level_ + 1)) = [] := by
    rw [List.filter_eq_nil_iff]
    intro a ha
    have := hw.levels_le a ha
    simp only [nodeLevelGt, decide_eq_true_eq]
    omega
  rw [hnil]
  rfl

/-- The descending search loop, started at level j with the level-(j+1)
predecessor as current position, ends at the level-0 predecessor. -/
theorem traverse_loop_spec {l : SkipList K V} (hw : WF l) (key : K) :
    ∀ j, j ≤ l.current_max_level_ →
      traverse_loop l.heap l.hsize key (predAtLevel l key (j + 1)) j =
        predAtLevel l key 0 := by
  intro j
  induction j with
  | zero =>
    intro _
    show move_forward_in_level l.heap key l.hsize (predAtLevel l key 1) 0 = _
    exact pred_step hw key (Nat.zero_le _)
  | succ j ih =>
    intro hj
    show traverse_loop l.heap l.hsize key
      (move_forward_in_level l.heap key l.hsize (predAtLevel l key (j + 2)) (j + 1)) j = _
    rw [pred_step hw key (le_trans hj hw.cml_le)]
    exact ih (Nat.le_of_succ_le hj)

/-- The level-0 chain splits at the search key. -/
theorem chain0_split {l : SkipList K V} (key : K) :
    chain0 l = (chain0 l).takeWhile (keyLt l.heap key) ++
      (chain0 l).dropWhile (keyLt l.heap key) :=
  (List.takeWhile_append_dropWhile _ _).symm

theorem predAtLevel_zero {l : SkipList K V} (hw : WF l) (key : K) :
    predAtLevel l key 0 = ((chain0 l).takeWhile (keyLt l.heap key)).getLastD l.header_ := by
  unfold predAtLevel
  rw [← hw.chain0_eq_filter]

/-- The chain hanging off the level-0 predecessor is the part of the level-0
chain at or above the search key. -/
theorem pred_zero_chain {l : SkipList K V} (hw : WF l) (key : K) :
    IsChain l.heap 0 (predAtLevel l key 0)
      ((chain0 l).dropWhile (keyLt l.heap key)) := by
  rw [predAtLevel_zero hw key]
  have h0 := hw.isChain_zero
  conv at h0 => rw [chain0_split (l := l) key]
  exact (isChain_append h0).2

/-- find_node returns the first node at or above the search key exactly when
its key matches. -/
theorem find_node_spec {l : SkipList K V} (hw : WF l) (key : K) :
    l.find_node key =
      match ((chain0 l).dropWhile (keyLt l.heap key)).head? with
      | none => none
      | some b => if keyD l.heap b = key then some b else none := by
  unfold SkipList.find_node
  have hstart : traverse_loop l.heap l.hsize key l.header_ l.current_max_level_ =
      predAtLevel l key 0 := by
    rw [← predAtLevel_top hw key]
    exact traverse_loop_spec hw key l.current_max_level_ (le_refl _)
  rw [hstart]
  have hchain := pred_zero_chain hw key
  cases hd0 : (chain0 l).dropWhile (keyLt l.heap key) with
  | nil =>
    rw [hd0] at hchain
    cases hchain with
    | nil hfa => simp [get_target_node, hfa]
  | cons b c =>
    rw [hd0] at hchain
    cases hchain with
    | cons hfa htail =>
      have hbmem : b ∈ chain0 l := by
        have hb : b ∈ (chain0 l).dropWhile (keyLt l.heap key) := by
          rw [hd0]; simp
        exact (List.dropWhile_sublist _).mem hb
      obtain ⟨n, hn⟩ := Option.isSome_iff_exists.mp (hw.valid b hbmem).2.1
      simp only [get_target_node, hfa, hn]
      have hkd : keyD l.heap b = n.key_ := by simp [keyD, hn]
      simp only [List.head?_cons]
      by_cases hk : n.key_ = key
      · rw [if_pos hk, if_pos (hkd.trans hk)]
      · rw [if_neg hk, if_neg (fun hc => hk (hkd.symm.trans hc))]

theorem lookupKey_append_skip {key : K} :
    ∀ {xs ys : List (K × V)}, (∀ e ∈ xs, e.1 ≠ key) →
      lookupKey key (xs ++ ys) = lookupKey key ys := by
  intro xs
  induction xs with
  | nil => intro ys _; rfl
  | cons e xs ih =>
    intro ys hne
    rw [List.cons_append]
    show (if e.1 = key then some e.2 else lookupKey key (xs ++ ys)) = _
    rw [if_neg (hne e (by simp))]
    exact ih (fun x hx => hne x (by simp [hx]))

theorem lookupKey_eq_none {key : K} :
    ∀ {xs : List (K × V)}, (∀ e ∈ xs, e.1 ≠ key) → lookupKey key xs = none := by
  intro xs hne
  have h1 : lookupKey key (xs ++ []) = lookupKey key ([] : List (K × V)) :=
    lookupKey_append_skip hne
  simpa using h1

theorem lookupKey_isSome_iff {key : K} :
    ∀ {xs : List (K × V)}, (lookupKey key xs).isSome = true ↔ key ∈ xs.map Prod.fst := by
  intro xs
  induction xs with
  | nil => simp [lookupKey]
  | cons e xs ih =>
    show (if e.1 = key then some e.2 else lookupKey key xs).isSome = true ↔ _
    by_cases hk : e.1 = key
    · simp [hk]
    · simp only [if_neg hk, List.map_cons, List.mem_cons]
      rw [ih]
      constructor
      · exact Or.inr
      · rintro (h | h)
        · exact absurd h.symm hk
        · exact h

/-- Behaviour of get against the association list of stored entries:
get returns the stored value of the matching key, none when absent. -/
theorem get_spec {l : SkipList K V} (hw : WF l) (key : K) :
    l.get key = lookupKey key (entries l) := by
  have hentries : entries l =
      ((chain0 l).takeWhile (keyLt l.heap key)).map
        (fun a => (keyD l.heap a, valD l.heap a)) ++
      ((chain0 l).dropWhile (keyLt l.heap key)).map
        (fun a => (keyD l.heap a, valD l.heap a)) := by
    unfold entries
    conv_lhs => rw [chain0_split (l := l) key]
    rw [List.map_append]
  have hskip : ∀ e ∈ ((chain0 l).takeWhile (keyLt l.heap key)).map
      (fun a => (keyD l.heap a, valD l.heap a)), e.1 ≠ key := by
    intro e he
    rw [List.mem_map] at he
    obtain ⟨a, ha, rfl⟩ := he
    have hp := List.mem_takeWhile_imp ha
    simp only [keyLt, decide_eq_true_eq] at hp
    exact ne_of_lt hp
  rw [hentries, lookupKey_append_skip hskip]
  unfold SkipList.get
  rw [find_node_spec hw key]
  cases hd0 : (chain0 l).dropWhile (keyLt l.heap key) with
  | nil => simp [lookupKey]
  | cons b d =>
    have hd0sub : ∀ x ∈ b :: d, x ∈ chain0 l := by
      intro x hx
      rw [← hd0] at hx
      exact (List.dropWhile_sublist _).mem hx
    obtain ⟨n, hn⟩ := Option.isSome_iff_exists.mp
      ((hw.valid b (hd0sub b (by simp))).2.1)
    have hkd : keyD l.heap b = n.key_ := by simp [keyD, hn]
    simp only [List.head?_cons, List.map_cons]
    by_cases hk : keyD l.heap b = key
    · rw [if_pos hk]
      show (match l.heap b with
        | none => none
        | some n => some n.value_) = _
      rw [hn]
      show some n.value_ = if keyD l.heap b = key then some (valD l.heap b) else _
      rw [if_pos hk]
      simp [valD, hn]
    · rw [if_neg hk]
      show (none : Option V) = if keyD l.heap b = key then some (valD l.heap b) else _
      rw [if_neg hk]
      symm
      apply lookupKey_eq_none
      intro e he
      rw [List.mem_map] at he
      obtain ⟨a, ha, rfl⟩ := he
      have hpair : (b :: d).Pairwise (fun a b => keyD l.heap a < keyD l.heap b) := by
        rw [← hd0]
        exact List.Pairwise.sublist (List.dropWhile_sublist _) hw.pairwise_keys
      have hba : keyD l.heap b < keyD l.heap a :=
        (List.pairwise_cons.mp hpair).1 a ha
      have hbge : keyLt l.heap key b = false := by
        have hmem : b ∈ (chain0 l).dropWhile (keyLt l.heap key) := by
          rw [hd0]; simp
        rw [sorted_dropWhile_eq_filter (keyLt_mono (l := l) key) hw.pairwise_keys] at hmem
        have := (List.mem_filter.mp hmem).2
        simpa using this
      have hble : key ≤ keyD l.heap b := by
        simp only [keyLt, decide_eq_false_iff_not, not_lt] at hbge
        exact hbge
      have : key < keyD l.heap a := lt_of_le_of_lt (lt_of_le_of_ne hble (Ne.symm hk)).le hba
      exact (ne_of_gt this)

/-- contains agrees with get. -/
theorem contains_spec {l : SkipList K V} (hw : WF l) (key : K) :
    l.contains key = (l.get key).isSome := by
  unfold SkipList.contains SkipList.get
  cases hfn : l.find_node key with
  | none => rfl
  | some a =>
    have hsome : (l.heap a).isSome = true := by
      rw [find_node_spec hw key] at hfn
      cases hd0 : ((chain0 l).dropWhile (keyLt l.heap key)).head? with
      | none => rw [hd0] at hfn; cases hfn
      | some b =>
        rw [hd0] at hfn
        dsimp only at hfn
        by_cases hk : keyD l.heap b = key
        · rw [if_pos hk] at hfn
          cases hfn
          have hbmem : a ∈ chain0 l := by
            have := List.mem_of_mem_head? hd0
            exact (List.dropWhile_sublist _).mem this
          exact (hw.valid a hbmem).2.1
        · rw [if_neg hk] at hfn; cases hfn
    obtain ⟨n, hn⟩ := Option.isSome_iff_exists.mp hsome
    simp [hn]

theorem entries_map_fst (l : SkipList K V) : (entries l).map Prod.fst = keysOf l := by
  unfold entries keysOf
  rw [List.map_map]
  rfl

theorem contains_iff {l : SkipList K V} (hw : WF l) (key : K) :
    l.contains key = true ↔ key ∈ keysOf l := by
  rw [contains_spec hw, get_spec hw]
  rw [lookupKey_isSome_iff, entries_map_fst]

theorem find_node_isSome_iff {l : SkipList K V} (hw : WF l) (key : K) :
    (l.find_node key).isSome = true ↔ key ∈ keysOf l := by
  have hc : l.contains key = (l.find_node key).isSome := rfl
  rw [← hc, contains_iff hw]

theorem traverse_start {l : SkipList K V} (hw : WF l) (key : K) :
    traverse_loop l.heap l.hsize key l.header_ l.current_max_level_ =
      predAtLevel l key 0 := by
  rw [← predAtLevel_top hw key]
  exact traverse_loop_spec hw key l.current_max_level_ (le_refl _)

theorem traverse_and_collect_length {h : Heap K V} {fuel : Nat} {key : K} :
    ∀ (j current : Nat) (acc : List (Option Nat)),
      (traverse_and_collect h fuel key current j acc).length = acc.length := by
  intro j
  induction j with
  | zero => intro current acc; simp [traverse_and_collect]
  | succ j ih => intro current acc; simp [traverse_and_collect, ih]

/-- The predecessor-collecting loop records the level-m predecessor at every
index m below its start level and leaves higher indices untouched. -/
theorem traverse_and_collect_spec {l : SkipList K V} (hw : WF l) (key : K) :
    ∀ j, j ≤ l.current_max_level_ → ∀ acc : List (Option Nat), j < acc.length →
      ∀ m, (traverse_and_collect l.heap l.hsize key
          (predAtLevel l key (j + 1)) j acc).getD m none =
        if m ≤ j then some (predAtLevel l key m) else acc.getD m none := by
  intro j
  induction j with
  | zero =>
    intro _ acc hlen m
    show (acc.set 0 (some (move_forward_in_level l.heap key l.hsize
      (predAtLevel l key 1) 0))).getD m none = _
    rw [pred_step hw key (Nat.zero_le _)]
    by_cases hm : m = 0
    · subst hm
      rw [getD_set_self _ _ _ _ hlen]
      rfl
    · rw [getD_set_other _ _ _ _ _ (fun hc => hm hc.symm), if_neg (by omega)]
  | succ j ih =>
    intro hj acc hlen m
    show (traverse_and_collect l.heap l.hsize key
        (move_forward_in_level l.heap key l.hsize (predAtLevel l key (j + 2)) (j + 1)) j
        (acc.set (j + 1) (some (move_forward_in_level l.heap key l.hsize
          (predAtLevel l key (j + 2)) (j + 1))))).getD m none = _
    rw [pred_step hw key (le_trans hj hw.cml_le)]
    rw [ih (Nat.le_of_succ_le hj) _ (by rw [List.length_set]; omega) m]
    by_cases hm : m ≤ j
    · rw [if_pos hm, if_pos (by omega)]
    · rw [if_neg hm]
      by_cases hm1 : m = j + 1
      · subst hm1
        rw [getD_set_self _ _ _ _ hlen, if_pos (le_refl _)]
      · rw [getD_set_other _ _ _ _ _ (fun hc => hm1 hc.symm), if_neg (by omega)]

/-- The predecessors array computed by find_predecessors: the level-m
predecessor at indices up to current_max_level, nullptr above. -/
theorem find_predecessors_spec {l : SkipList K V} (hw : WF l) (key : K) (m : Nat) :
    (l.find_predecessors key).getD m none =
      if m ≤ l.current_max_level_ then some (predAtLevel l key m) else none := by
  unfold SkipList.find_predecessors
  rw [← predAtLevel_top hw key]
  rw [traverse_and_collect_spec hw key l.current_max_level_ (le_refl _) _
    (by rw [List.length_replicate]; have := hw.cml_le; omega) m]
  rw [getD_replicate]

theorem find_predecessors_length (l : SkipList K V) (key : K) :
    (l.find_predecessors key).length = l.max_level_ + 1 := by
  unfold SkipList.find_predecessors
  rw [traverse_and_collect_length, List.length_replicate]

theorem gnalz_pred0 {l : SkipList K V} (hw : WF l) (key : K) :
    get_node_at_level_zero l.heap (predAtLevel l key 0) key = l.find_node key := by
  have he : get_node_at_level_zero l.heap (predAtLevel l key 0) key
      = get_target_node l.heap (predAtLevel l key 0) key := rfl
  rw [he]
  unfold SkipList.find_node
  rw [traverse_start hw key]

/-- put dispatches on whether find_node succeeds. -/
theorem put_eq_branches {l : SkipList K V} (hw : WF l) (key : K) (value : V) :
    l.put key value =
      match l.find_node key with
      | some existing => { l with heap := update_existing_node l.heap existing value }
      | none => l.insert_new_node key value (l.find_predecessors key) := by
  unfold SkipList.put
  dsimp only
  have h0 : (l.find_predecessors key).getD 0 none = some (predAtLevel l key 0) := by
    rw [find_predecessors_spec hw key 0, if_pos (Nat.zero_le _)]
  rw [h0]
  dsimp only
  rw [gnalz_pred0 hw key]

/-- remove dispatches on whether find_node succeeds. -/
theorem remove_eq_branches {l : SkipList K V} (hw : WF l) (key : K) :
    l.remove key =
      match l.find_node key with
      | none => (l, false)
      | some nodeAddr =>
        ({ l with
            heap := delete_node l.heap nodeAddr (l.find_predecessors key) l.current_max_level_
            current_max_level_ := adjust_max_level
              (delete_node l.heap nodeAddr (l.find_predecessors key) l.current_max_level_)
              l.header_ l.current_max_level_
            element_count_ := l.element_count_ - 1 }, true) := by
  unfold SkipList.remove
  dsimp only
  have h0 : (l.find_predecessors key).getD 0 none = some (predAtLevel l key 0) := by
    rw [find_predecessors_spec hw key 0, if_pos (Nat.zero_le _)]
  rw [h0]
  dsimp only
  rw [gnalz_pred0 hw key]

/-- Sorted-insert-or-replace on association lists: the abstract effect of
put. -/
def upsert (k : K) (v : V) : List (K × V) → List (K × V)
  | [] => [(k, v)]
  | e :: rest =>
    if e.1 < k then e :: upsert k v rest
    else if e.1 = k then (k, v) :: rest
    else (k, v) :: e :: rest

/-- Deletion of the first entry with the given key from a sorted association
list: the abstract effect of remove. -/
def eraseKey (k : K) : List (K × V) → List (K × V)
  | [] => []
  | e :: rest =>
    if e.1 < k then e :: eraseKey k rest
    else if e.1 = k then rest
    else e :: rest

theorem lookupKey_upsert_self (k : K) (v : V) :
    ∀ (es : List (K × V)), lookupKey k (upsert k v es) = some v := by
  intro es
  induction es with
  | nil => simp [upsert, lookupKey]
  | cons e rest ih =>
    show lookupKey k (if e.1 < k then e :: upsert k v rest
      else if e.1 = k then (k, v) :: rest else (k, v) :: e :: rest) = some v
    by_cases h1 : e.1 < k
    · rw [if_pos h1]
      show (if e.1 = k then some e.2 else lookupKey k (upsert k v rest)) = some v
      rw [if_neg (ne_of_lt h1), ih]
    · rw [if_neg h1]
      by_cases h2 : e.1 = k
      · rw [if_pos h2]
        show (if k = k then some v else _) = some v
        rw [if_pos rfl]
      · rw [if_neg h2]
        show (if k = k then some v else _) = some v
        rw [if_pos rfl]

theorem lookupKey_upsert_ne {k k2 : K} (v : V) (hne : k2 ≠ k) :
    ∀ (es : List (K × V)), lookupKey k2 (upsert k v es) = lookupKey k2 es := by
  intro es
  induction es with
  | nil =>
    show (if k = k2 then some v else lookupKey k2 []) = lookupKey k2 []
    rw [if_neg (Ne.symm hne)]
  | cons e rest ih =>
    show lookupKey k2 (if e.1 < k then e :: upsert k v rest
      else if e.1 = k then (k, v) :: rest else (k, v) :: e :: rest) = _
    by_cases h1 : e.1 < k
    · rw [if_pos h1]
      show (if e.1 = k2 then some e.2 else lookupKey k2 (upsert k v rest)) = _
      rw [ih]
      rfl
    · rw [if_neg h1]
      by_cases h2 : e.1 = k
      · rw [if_pos h2]
        show (if k = k2 then some v else lookupKey k2 rest) = _
        rw [if_neg (Ne.symm hne)]
        show _ = (if e.1 = k2 then some e.2 else lookupKey k2 rest)
        rw [if_neg (fun hc => hne (hc.symm.trans h2))]
      · rw [if_neg h2]
        show (if k = k2 then some v else lookupKey k2 (e :: rest)) = _
        rw [if_neg (Ne.symm hne)]

theorem lookupKey_eraseKey_ne {k k2 : K} (hne : k2 ≠ k) :
    ∀ (es : List (K × V)), lookupKey k2 (eraseKey k es) = lookupKey k2 es := by
  intro es
  induction es with
  | nil => rfl
  | cons e rest ih =>
    show lookupKey k2 (if e.1 < k then e :: eraseKey k rest
      else if e.1 = k then rest else e :: rest) = _
    by_cases h1 : e.1 < k
    · rw [if_pos h1]
      show (if e.1 = k2 then some e.2 else lookupKey k2 (eraseKey k rest)) = _
      rw [ih]
      rfl
    · rw [if_neg h1]
      by_cases h2 : e.1 = k
      · rw [if_pos h2]
        show _ = (if e.1 = k2 then some e.2 else lookupKey k2 rest)
        rw [if_neg (fun hc => hne (hc.symm.trans h2))]
      · rw [if_neg h2]

theorem lookupKey_eraseKey_self {k : K} :
    ∀ {es : List (K × V)}, (es.map Prod.fst).Pairwise (· < ·) →
      lookupKey k (eraseKey k es) = none := by
  intro es
  induction es with
  | nil => intro _; rfl
  | cons e rest ih =>
    intro hp
    rw [List.map_cons, List.pairwise_cons] at hp
    show lookupKey k (if e.1 < k then e :: eraseKey k rest
      else if e.1 = k then rest else e :: rest) = none
    by_cases h1 : e.1 < k
    · rw [if_pos h1]
      show (if e.1 = k then some e.2 else lookupKey k (eraseKey k rest)) = none
      rw [if_neg (ne_of_lt h1), ih hp.2]
    · rw [if_neg h1]
      by_cases h2 : e.1 = k
      · rw [if_pos h2]
        apply lookupKey_eq_none
        intro x hx
        have := hp.1 x.1 (List.mem_map_of_mem _ hx)
        rw [h2] at this
        exact (ne_of_lt this).symm
      · rw [if_neg h2]
        show (if e.1 = k then some e.2 else lookupKey k rest) = none
        rw [if_neg h2]
        apply lookupKey_eq_none
        intro x hx
        have hgt := hp.1 x.1 (List.mem_map_of_mem _ hx)
        have hek : k < e.1 := lt_of_le_of_ne (not_lt.mp h1) (Ne.symm h2)
        exact (ne_of_lt (lt_trans hek hgt)).symm

theorem upsert_append_lt {k : K} {v : V} :
    ∀ {xs ys : List (K × V)}, (∀ e ∈ xs, e.1 < k) →
      upsert k v (xs ++ ys) = xs ++ upsert k v ys := by
  intro xs
  induction xs with
  | nil => intro ys _; rfl
  | cons e xs ih =>
    intro ys hlt
    rw [List.cons_append]
    show (if e.1 < k then e :: upsert k v (xs ++ ys) else _) = _
    rw [if_pos (hlt e (by simp)), ih (fun x hx => hlt x (by simp [hx]))]
    rfl

theorem eraseKey_append_lt {k : K} :
    ∀ {xs ys : List (K × V)}, (∀ e ∈ xs, e.1 < k) →
      eraseKey k (xs ++ ys) = xs ++ eraseKey k ys := by
  intro xs
  induction xs with
  | nil => intro ys _; rfl
  | cons e xs ih =>
    intro ys hlt
    rw [List.cons_append]
    show (if e.1 < k then e :: eraseKey k (xs ++ ys) else _) = _
    rw [if_pos (hlt e (by simp)), ih (fun x hx => hlt x (by simp [hx]))]
    rfl

/-- The length of the initial run of successful coin flips starting at
position p, capped at the given bound. -/
def successRun (g : Nat → Bool) : Nat → Nat → Nat
  | _, 0 => 0
  | p, cap + 1 => if g p then successRun g (p + 1) cap + 1 else 0

theorem successRun_le (g : Nat → Bool) : ∀ (cap p : Nat), successRun g p cap ≤ cap := by
  intro cap
  induction cap with
  | zero => intro p; exact le_refl 0
  | succ cap ih =>
    intro p
    show (if g p then successRun g (p + 1) cap + 1 else 0) ≤ cap + 1
    by_cases hg : g p
    · rw [if_pos hg]
      exact Nat.succ_le_succ (ih (p + 1))
    · rw [if_neg hg]
      exact Nat.zero_le _

theorem coin_level_loop_spec (max_level : Nat) (g : Nat → Bool) :
    ∀ (fuel level p : Nat), level ≤ max_level → max_level + 1 ≤ fuel + level →
      (coin_level_loop max_level g fuel level p).1 =
        level + successRun g p (max_level - level) := by
  intro fuel
  induction fuel with
  | zero => intro level p h1 h2; omega
  | succ fuel ih =>
    intro level p h1 _
    show (if g p then
        if level < max_level then coin_level_loop max_level g fuel (level + 1) (p + 1)
        else (level, p + 1)
      else (level, p + 1)).1 = _
    by_cases hg : g p
    · rw [if_pos hg]
      by_cases hlt : level < max_level
      · rw [if_pos hlt]
        rw [ih (level + 1) (p + 1) (by omega) (by omega)]
        have hml : max_level - level = (max_level - (level + 1)) + 1 := by omega
        rw [hml]
        show level + 1 + successRun g (p + 1) (max_level - (level + 1)) =
          level + (if g p then successRun g (p + 1) (max_level - (level + 1)) + 1 else 0)
        rw [if_pos hg]
        omega
      · rw [if_neg hlt]
        have hml : max_level - level = 0 := by omega
        rw [hml]
        rfl
    · rw [if_neg hg]
      cases hml : max_level - level with
      | zero => rfl
      | succ cap =>
        show level = level + (if g p then _ + 1 else 0)
        rw [if_neg hg]
        omega

/-- The level drawn by generate_random_level is the length of the initial
run of successful flips, capped at max_level. -/
theorem generate_random_level_spec (max_level : Nat) (g : Nat → Bool) (p : Nat) :
    (generate_random_level max_level g p).1 = successRun g p max_level := by
  unfold generate_random_level
  rw [coin_level_loop_spec max_level g (max_level + 1) 0 p (Nat.zero_le _) (by omega)]
  simp

theorem generate_random_level_le (max_level : Nat) (g : Nat → Bool) (p : Nat) :
    (generate_random_level max_level g p).1 ≤ max_level := by
  rw [generate_random_level_spec]
  exact successRun_le g max_level p

/-- Specification of the level-shrinking loop of remove: the result is no
larger, the header has successors at the resulting level unless it is 0, and
the header has no successors strictly between the result and the start. -/
theorem adjust_max_level_spec (h : Heap K V) (header : Nat) :
    ∀ cml, adjust_max_level h header cml ≤ cml ∧
      (adjust_max_level h header cml = 0 ∨
        fwd h header (adjust_max_level h header cml) ≠ none) ∧
      (∀ j, adjust_max_level h header cml < j → j ≤ cml → fwd h header j = none) := by
  intro cml
  induction cml with
  | zero => exact ⟨le_refl _, Or.inl rfl, fun j h1 h2 => by omega⟩
  | succ cml ih =>
    by_cases hc : fwd h header (cml + 1) = none
    · have hadj : adjust_max_level h header (cml + 1) = adjust_max_level h header cml := by
        show (if fwd h header (cml + 1) = none then _ else _) = _
        rw [if_pos hc]
      rw [hadj]
      refine ⟨le_trans ih.1 (by omega), ih.2.1, ?_⟩
      intro j h1 h2
      by_cases hj : j = cml + 1
      · rw [hj]; exact hc
      · exact ih.2.2 j h1 (by omega)
    · have hadj : adjust_max_level h header (cml + 1) = cml + 1 := by
        show (if fwd h header (cml + 1) = none then _ else _) = _
        rw [if_neg hc]
      rw [hadj]
      exact ⟨le_refl _, Or.inr hc, fun j h1 h2 => by omega⟩

theorem fwd_eq_none_of_len_le {h : Heap K V} {a j : Nat} (hj : fwdLen h a ≤ j) :
    fwd h a j = none := by
  unfold fwd fwdLen at *
  cases hna : h a with
  | none => rfl
  | some n =>
    rw [hna] at hj
    exact List.getD_eq_default _ _ hj

theorem isSome_of_fwdLen_pos {h : Heap K V} {a : Nat} (hp : 0 < fwdLen h a) :
    (h a).isSome = true := by
  unfold fwdLen at hp
  cases hna : h a with
  | none => rw [hna] at hp; simp at hp
  | some n => rfl

/-- Either the predecessor at level i is the header, or it is a node of the
level-i chain whose key is below the search key. -/
theorem predAtLevel_cases (l : SkipList K V) (key : K) (i : Nat) :
    predAtLevel l key i = l.header_ ∨
      predAtLevel l key i ∈ (levelFilter l i).takeWhile (keyLt l.heap key) := by
  unfold predAtLevel
  rcases List.eq_nil_or_concat ((levelFilter l i).takeWhile (keyLt l.heap key)) with
    hnil | ⟨u, x, hconcat⟩
  · rw [hnil]
    exact Or.inl rfl
  · rw [hconcat, List.concat_eq_append, getLastD_append_cons]
    right
    simp

theorem predAtLevel_high {l : SkipList K V} (hw : WF l) (key : K) {i : Nat}
    (hi : l.current_max_level_ < i) : predAtLevel l key i = l.header_ := by
  unfold predAtLevel levelFilter
  have hnil : (chain0 l).filter (nodeLevelGt l.heap i) = [] := by
    rw [List.filter_eq_nil_iff]
    intro a ha
    have := hw.levels_le a ha
    simp only [nodeLevelGt, decide_eq_true_eq]
    omega
  rw [hnil]
  rfl

theorem foldl_set_length {β : Type} (v : β) :
    ∀ (idxs : List Nat) (acc : List β),
      (idxs.foldl (fun ps i => ps.set i v) acc).length = acc.length := by
  intro idxs
  induction idxs with
  | nil => intro acc; rfl
  | cons i idxs ih => intro acc; rw [List.foldl_cons, ih, List.length_set]

theorem foldl_set_range'_getD {β : Type} (v d : β) :
    ∀ (cnt start : Nat) (acc : List β), start + cnt ≤ acc.length →
      ∀ m, ((List.range' start cnt).foldl (fun ps i => ps.set i v) acc).getD m d =
        if start ≤ m ∧ m < start + cnt then v else acc.getD m d := by
  intro cnt
  induction cnt with
  | zero =>
    intro start acc _ m
    rw [if_neg (by omega)]
    rfl
  | succ cnt ih =>
    intro start acc hlen m
    rw [List.range'_succ, List.foldl_cons]
    rw [ih (start + 1) (acc.set start v) (by rw [List.length_set]; omega) m]
    by_cases h1 : start + 1 ≤ m ∧ m < start + 1 + cnt
    · rw [if_pos h1, if_pos (by omega)]
    · rw [if_neg h1]
      by_cases h2 : m = start
      · subst h2
        rw [getD_set_self _ _ _ _ (by omega), if_pos (by omega)]
      · rw [getD_set_other _ _ _ _ _ (fun hc => h2 hc.symm), if_neg (by omega)]

theorem mem_dropLast_ne_last {α : Type} {l : List α} {x a : α} {u : List α}
    (hnd : l.Nodup) (hl : l = u ++ [a]) (hx : x ∈ u) : x ≠ a := by
  subst hl
  rcases List.nodup_append.mp hnd with ⟨_, _, hdisj⟩
  intro hc
  exact hdisj hx (by simp [hc])

theorem chainAtO_congr {h h' : Heap K V} (hf : ∀ x j, fwd h' x j = fwd h x j) :
    ∀ (i fuel a : Nat), chainAtO h' i fuel a = chainAtO h i fuel a := by
  intro i fuel
  induction fuel with
  | zero => intro a; rfl
  | succ fuel ih =>
    intro a
    unfold chainAtO
    rw [hf a i]
    cases fwd h a i with
    | none => rfl
    | some b =>
      dsimp only
      rw [ih b]

theorem find_node_some_elim {l : SkipList K V} (hw : WF l) {key : K} {b : Nat}
    (hfn : l.find_node key = some b) :
    ((chain0 l).dropWhile (keyLt l.heap key)).head? = some b ∧
      keyD l.heap b = key ∧ b ∈ chain0 l := by
  rw [find_node_spec hw key] at hfn
  cases hd : ((chain0 l).dropWhile (keyLt l.heap key)).head? with
  | none => rw [hd] at hfn; cases hfn
  | some b' =>
    rw [hd] at hfn
    dsimp only at hfn
    by_cases hk : keyD l.heap b' = key
    · rw [if_pos hk] at hfn
      cases hfn
      refine ⟨rfl, hk, ?_⟩
      exact (List.dropWhile_sublist _).mem (List.mem_of_mem_head? hd)
    · rw [if_neg hk] at hfn
      cases hfn

/-- Full description of the update branch of put: when the key is present,
the only change is the stored value of the matching node — no new node, the
same chains, levels, current_max_level and element_count — and the entry list
is updated in place. -/
theorem put_update_full {l : SkipList K V} (hw : WF l) {key : K} (value : V) {b : Nat}
    (hfn : l.find_node key = some b) :
    WF (l.put key value) ∧
    entries (l.put key value) = upsert key value (entries l) ∧
    (l.put key value).heap = update_existing_node l.heap b value ∧
    (l.put key value).hsize = l.hsize ∧
    (l.put key value).current_max_level_ = l.current_max_level_ ∧
    (l.put key value).element_count_ = l.element_count_ ∧
    chain0 (l.put key value) = chain0 l ∧
    (∀ x, fwdLen (l.put key value).heap x = fwdLen l.heap x) := by
  obtain ⟨hd0, hbk, hbmem⟩ := find_node_some_elim hw hfn
  have hstate : l.put key value = { l with heap := update_existing_node l.heap b value } := by
    rw [put_eq_branches hw, hfn]
  set l2 := { l with heap := update_existing_node l.heap b value } with hl2
  have hfws : ∀ x j, fwd l2.heap x j = fwd l.heap x j := fun x j => fwd_update_existing value x j
  have hflen : ∀ x, fwdLen l2.heap x = fwdLen l.heap x := fun x => fwdLen_update_existing value x
  have hkeys : ∀ x, keyD l2.heap x = keyD l.heap x := fun x => keyD_update_existing value x
  have hsomes : ∀ x, (l2.heap x).isSome = (l.heap x).isSome := fun x => isSome_update_existing value x
  have hlco : ∀ i, levelChainO l2 i = levelChainO l i := by
    intro i
    unfold levelChainO
    exact chainAtO_congr hfws i _ _
  have hchain0 : chain0 l2 = chain0 l := by
    unfold chain0
    rw [hlco 0]
  have hlf : ∀ i, levelFilter l2 i = levelFilter l i := by
    intro i
    unfold levelFilter
    rw [hchain0]
    apply List.filter_congr
    intro a _
    simp [nodeLevelGt, hflen a]
  have hw2 : WF l2 := by
    refine ⟨hw.cml_le, hw.header_lt, ?_, ?_, ?_, ?_, ?_, ?_, ?_, ?_⟩
    · rw [show l2.header_ = l.header_ from rfl] at *
      rw [hflen, hw.header_len]
    · intro i hi
      rw [hlco i, hlf i]
      exact hw.chain_ok i hi
    · intro a ha
      rw [hchain0] at ha
      rcases hw.valid a ha with ⟨h1, h2, h3⟩
      exact ⟨h1, (hsomes a).trans h2, h3⟩
    · rw [hchain0]
      exact hw.nodup
    · rw [hchain0]
      have hmap : (chain0 l).map (keyD l2.heap) = (chain0 l).map (keyD l.heap) :=
        List.map_congr_left (fun a _ => hkeys a)
      rw [hmap]
      exact hw.sorted
    · rw [hchain0]
      exact hw.count
    · intro a ha
      rw [hchain0] at ha
      rw [hflen a]
      exact hw.levels_le a ha
    · rcases hw.top_nonempty with h1 | h1
      · exact Or.inl h1
      · right
        rw [hlf]
        exact h1
  have hd0cons : ∃ d', (chain0 l).dropWhile (keyLt l.heap key) = b :: d' := by
    cases hd : (chain0 l).dropWhile (keyLt l.heap key) with
    | nil => rw [hd] at hd0; cases hd0
    | cons x d' =>
      rw [hd] at hd0
      simp at hd0
      exact ⟨d', by rw [hd0]⟩
  obtain ⟨d', hd'⟩ := hd0cons
  have hsplit : chain0 l = (chain0 l).takeWhile (keyLt l.heap key) ++ b :: d' := by
    rw [← hd']
    exact chain0_split key
  have hnodup := hw.chain0_nodup
  rw [hsplit] at hnodup
  have hbt0 : b ∉ (chain0 l).takeWhile (keyLt l.heap key) := by
    rcases List.nodup_append.mp hnodup with ⟨_, _, hdisj⟩
    intro hc
    exact hdisj hc (by simp)
  have hbd' : b ∉ d' := by
    rcases List.nodup_append.mp hnodup with ⟨_, hnd2, _⟩
    exact (List.nodup_cons.mp hnd2).1
  have hbsome : (l.heap b).isSome = true := (hw.valid b hbmem).2.1
  have hentries : entries l2 = upsert key value (entries l) := by
    unfold entries
    rw [hchain0, hsplit]
    rw [List.map_append, List.map_append, List.map_cons, List.map_cons]
    have ht0 : ((chain0 l).takeWhile (keyLt l.heap key)).map
        (fun a => (keyD l2.heap a, valD l2.heap a)) =
        ((chain0 l).takeWhile (keyLt l.heap key)).map
        (fun a => (keyD l.heap a, valD l.heap a)) := by
      apply List.map_congr_left
      intro a ha
      have hab : a ≠ b := fun hc => hbt0 (hc ▸ ha)
      rw [hkeys a, show valD l2.heap a = valD l.heap a from valD_update_existing_ne value hab]
    have hd'm : d'.map (fun a => (keyD l2.heap a, valD l2.heap a)) =
        d'.map (fun a => (keyD l.heap a, valD l.heap a)) := by
      apply List.map_congr_left
      intro a ha
      have hab : a ≠ b := fun hc => hbd' (hc ▸ ha)
      rw [hkeys a, show valD l2.heap a = valD l.heap a from valD_update_existing_ne value hab]
    have hbval : valD l2.heap b = value := valD_update_existing_self value hbsome
    rw [ht0, hd'm, hkeys b, hbval]
    have hups : upsert key value
        (((chain0 l).takeWhile (keyLt l.heap key)).map
          (fun a => (keyD l.heap a, valD l.heap a)) ++
         ((keyD l.heap b, valD l.heap b) :: d'.map (fun a => (keyD l.heap a, valD l.heap a)))) =
        ((chain0 l).takeWhile (keyLt l.heap key)).map
          (fun a => (keyD l.heap a, valD l.heap a)) ++
        ((key, value) :: d'.map (fun a => (keyD l.heap a, valD l.heap a))) := by
      rw [upsert_append_lt]
      · congr 1
        show (if (keyD l.heap b, valD l.heap b).1 < key then _
          else if (keyD l.heap b, valD l.heap b).1 = key then
            (key, value) :: d'.map (fun a => (keyD l.heap a, valD l.heap a)) else _) = _
        rw [if_neg (by rw [hbk]; exact lt_irrefl key), if_pos hbk]
      · intro e he
        rw [List.mem_map] at he
        obtain ⟨a, ha, rfl⟩ := he
        have := List.mem_takeWhile_imp ha
        simpa [keyLt] using this
    rw [hbk] at hups ⊢
    rw [hups]
  rw [hstate]
  exact ⟨hw2, hentries, rfl, rfl, rfl, rfl, hchain0, hflen⟩

/-- Partial execution of the insertion splice loop: the first n levels
processed. -/
def spliceFold (h1 : Heap K V) (m : Nat) (preds : List (Option Nat)) (n : Nat) : Heap K V :=
  (List.range n).foldl (fun hh i => splice_level hh m preds i) h1

theorem spliceFold_succ (h1 : Heap K V) (m : Nat) (preds : List (Option Nat)) (n : Nat) :
    spliceFold h1 m preds (n + 1) = splice_level (spliceFold h1 m preds n) m preds n := by
  unfold spliceFold
  rw [List.range_succ, List.foldl_append]
  rfl

theorem insert_node_eq_spliceFold (h1 : Heap K V) (m : Nat) (preds : List (Option Nat))
    (L : Nat) : insert_node_at_all_levels h1 m preds L = spliceFold h1 m preds (L + 1) := rfl

/-- Effect of the splice loop on the heap: at each level i up to L the
predecessor now points at the new node, the new node points at the
predecessor's old successor, and every other forward pointer, and every key,
value, allocation state and forward-vector length, is untouched. -/
theorem spliceFold_spec {h1 : Heap K V} {m : Nat} {preds : List (Option Nat)}
    {P : Nat → Nat} {L : Nat}
    (hP : ∀ i, i ≤ L → preds.getD i none = some (P i))
    (hPm : ∀ i, i ≤ L → P i ≠ m)
    (hPlen : ∀ i, i ≤ L → i < fwdLen h1 (P i))
    (hmlen : fwdLen h1 m = L + 1) :
    ∀ n, n ≤ L + 1 →
      (∀ i, i < n → fwd (spliceFold h1 m preds n) (P i) i = some m) ∧
      (∀ i, i < n → fwd (spliceFold h1 m preds n) m i = fwd h1 (P i) i) ∧
      (∀ i, n ≤ i → fwd (spliceFold h1 m preds n) m i = fwd h1 m i) ∧
      (∀ x j, x ≠ m → (j < n → x ≠ P j) → fwd (spliceFold h1 m preds n) x j = fwd h1 x j) ∧
      (∀ x, fwdLen (spliceFold h1 m preds n) x = fwdLen h1 x) ∧
      (∀ x, keyD (spliceFold h1 m preds n) x = keyD h1 x) ∧
      (∀ x, valD (spliceFold h1 m preds n) x = valD h1 x) ∧
      (∀ x, ((spliceFold h1 m preds n) x).isSome = (h1 x).isSome) := by
  intro n
  induction n with
  | zero =>
    intro _
    exact ⟨fun i hi => by omega, fun i hi => by omega, fun i _ => rfl,
      fun x j _ _ => rfl, fun x => rfl, fun x => rfl, fun x => rfl, fun x => rfl⟩
  | succ n ih =>
    intro hn1
    have hn : n ≤ L := by omega
    obtain ⟨ih1, ih2, ih3, ih4, ih5, ih6, ih7, ih8⟩ := ih (by omega)
    have hstep : spliceFold h1 m preds (n + 1) =
        setFwd (setFwd (spliceFold h1 m preds n) m n
          (fwd (spliceFold h1 m preds n) (P n) n)) (P n) n (some m) := by
      rw [spliceFold_succ]
      unfold splice_level
      rw [hP n hn]
    have hv : fwd (spliceFold h1 m preds n) (P n) n = fwd h1 (P n) n :=
      ih4 (P n) n (hPm n hn) (fun hlt => by omega)
    set hh := spliceFold h1 m preds n with hhh
    set hA := setFwd hh m n (fwd hh (P n) n) with hha
    have hAfwd_m : fwd hA m n = fwd h1 (P n) n := by
      rw [hha, fwd_setFwd_self (by rw [ih5 m, hmlen]; omega), hv]
    have hApres : ∀ x j, x ≠ m ∨ j ≠ n → fwd hA x j = fwd hh x j :=
      fun x j hx => fwd_setFwd_ne hx
    have hBfwd_P : fwd (setFwd hA (P n) n (some m)) (P n) n = some m := by
      apply fwd_setFwd_self
      rw [show fwdLen hA (P n) = fwdLen hh (P n) from fwdLen_setFwd _ _ _, ih5]
      exact hPlen n hn
    have hBpres : ∀ x j, x ≠ P n ∨ j ≠ n →
        fwd (setFwd hA (P n) n (some m)) x j = fwd hA x j :=
      fun x j hx => fwd_setFwd_ne hx
    rw [hstep]
    refine ⟨?_, ?_, ?_, ?_, ?_, ?_, ?_, ?_⟩
    · intro i hi
      by_cases hin : i = n
      · subst hin
        exact hBfwd_P
      · rw [hBpres (P i) i (Or.inr hin), hApres (P i) i (Or.inr hin)]
        exact ih1 i (by omega)
    · intro i hi
      by_cases hin : i = n
      · subst hin
        rw [hBpres m i (Or.inl (Ne.symm (hPm i hn)))]
        exact hAfwd_m
      · rw [hBpres m i (Or.inr hin), hApres m i (Or.inr hin)]
        exact ih2 i (by omega)
    · intro i hi
      rw [hBpres m i (Or.inr (by omega)), hApres m i (Or.inr (by omega))]
      exact ih3 i (by omega)
    · intro x j hxm hxp
      by_cases hjn : j = n
      · subst hjn
        rw [hBpres x j (Or.inl (hxp (by omega))), hApres x j (Or.inl hxm)]
        exact ih4 x j hxm (fun hlt => by omega)
      · rw [hBpres x j (Or.inr hjn), hApres x j (Or.inr hjn)]
        exact ih4 x j hxm (fun hlt => hxp (by omega))
    · intro x
      rw [show fwdLen (setFwd hA (P n) n (some m)) x = fwdLen hA x from fwdLen_setFwd _ _ _,
        show fwdLen hA x = fwdLen hh x from fwdLen_setFwd _ _ _]
      exact ih5 x
    · intro x
      rw [show keyD (setFwd hA (P n) n (some m)) x = keyD hA x from keyD_setFwd _ _ _,
        show keyD hA x = keyD hh x from keyD_setFwd _ _ _]
      exact ih6 x
    · intro x
      rw [show valD (setFwd hA (P n) n (some m)) x = valD hA x from valD_setFwd _ _ _,
        show valD hA x = valD hh x from valD_setFwd _ _ _]
      exact ih7 x
    · intro x
      rw [show ((setFwd hA (P n) n (some m)) x).isSome = (hA x).isSome from
        isSome_setFwd _ _ _, show (hA x).isSome = (hh x).isSome from isSome_setFwd _ _ _]
      exact ih8 x

/-- When find_node fails, every node at or above the search position has a
key strictly above the search key. -/
theorem find_node_none_elim {l : SkipList K V} (hw : WF l) {key : K}
    (hfn : l.find_node key = none) :
    ∀ y ∈ (chain0 l).dropWhile (keyLt l.heap key), key < keyD l.heap y := by
  rw [find_node_spec hw key] at hfn
  intro y hy
  cases hd : (chain0 l).dropWhile (keyLt l.heap key) with
  | nil => rw [hd] at hy; simp at hy
  | cons b d' =>
    rw [hd] at hfn
    rw [List.head?_cons] at hfn
    dsimp only at hfn
    have hbne : keyD l.heap b ≠ key := by
      by_cases hk : keyD l.heap b = key
      · rw [if_pos hk] at hfn; cases hfn
      · exact hk
    have hbge : key ≤ keyD l.heap b := by
      have hmem : b ∈ (chain0 l).dropWhile (keyLt l.heap key) := by rw [hd]; simp
      rw [sorted_dropWhile_eq_filter (keyLt_mono (l := l) key) hw.pairwise_keys] at hmem
      have := (List.mem_filter.mp hmem).2
      simp only [keyLt, Bool.not_eq_eq_eq_not, Bool.not_true, decide_eq_false_iff_not,
        not_lt] at this
      exact this
    have hbgt : key < keyD l.heap b := lt_of_le_of_ne hbge (Ne.symm hbne)
    rw [hd] at hy
    rcases List.mem_cons.mp hy with rfl | hy'
    · exact hbgt
    · have hpair : (b :: d').Pairwise (fun a c => keyD l.heap a < keyD l.heap c) := by
        rw [← hd]
        exact List.Pairwise.sublist (List.dropWhile_sublist _) hw.pairwise_keys
      exact lt_trans hbgt ((List.pairwise_cons.mp hpair).1 y hy')

theorem takeWhile_levelFilter_eq {l : SkipList K V} (hw : WF l) (key : K) (i : Nat) :
    (levelFilter l i).takeWhile (keyLt l.heap key) =
      ((chain0 l).takeWhile (keyLt l.heap key)).filter (nodeLevelGt l.heap i) := by
  rw [sorted_takeWhile_eq_filter (keyLt_mono key) (levelFilter_pairwise hw i)]
  unfold levelFilter
  rw [List.filter_comm]
  rw [← sorted_takeWhile_eq_filter (keyLt_mono key) hw.pairwise_keys]

theorem dropWhile_levelFilter_eq {l : SkipList K V} (hw : WF l) (key : K) (i : Nat) :
    (levelFilter l i).dropWhile (keyLt l.heap key) =
      ((chain0 l).dropWhile (keyLt l.heap key)).filter (nodeLevelGt l.heap i) := by
  rw [sorted_dropWhile_eq_filter (keyLt_mono key) (levelFilter_pairwise hw i)]
  unfold levelFilter
  rw [List.filter_comm]
  rw [← sorted_dropWhile_eq_filter (keyLt_mono key) hw.pairwise_keys]

/-- The level-i predecessor is an allocated node (or the header) whose
forward vector reaches past level i. -/
theorem predAtLevel_valid {l : SkipList K V} (hw : WF l) (key : K) {i : Nat}
    (hi : i ≤ l.max_level_) :
    predAtLevel l key i < l.hsize ∧ i < fwdLen l.heap (predAtLevel l key i) := by
  rcases predAtLevel_cases l key i with hp | hp
  · rw [hp]
    exact ⟨hw.header_lt, by rw [hw.header_len]; omega⟩
  · have hmem : predAtLevel l key i ∈ levelFilter l i := (List.takeWhile_sublist _).mem hp
    have hmem0 : predAtLevel l key i ∈ chain0 l := levelFilter_sub _ hmem
    refine ⟨(hw.valid _ hmem0).1, ?_⟩
    have := (List.mem_filter.mp hmem).2
    simpa [nodeLevelGt] using this

/-- Reconstruction of every level chain after the splice: at spliced levels
the new node sits between the predecessor's prefix and its old suffix; at
higher levels the chain is untouched. -/
theorem insert_level_chain {l : SkipList K V} (hw : WF l) (key : K) {h2 : Heap K V}
    {m L : Nat}
    (hheadm : l.header_ ≠ m)
    (hfresh : ∀ x ∈ chain0 l, x ≠ m)
    (hS1 : ∀ i, i ≤ L → fwd h2 (predAtLevel l key i) i = some m)
    (hS2 : ∀ i, i ≤ L → fwd h2 m i = fwd l.heap (predAtLevel l key i) i)
    (hS4 : ∀ x j, x ≠ m → (j ≤ L → x ≠ predAtLevel l key j) →
      fwd h2 x j = fwd l.heap x j) :
    ∀ i, i ≤ l.max_level_ →
      (i ≤ L → IsChain h2 i l.header_
        ((levelFilter l i).takeWhile (keyLt l.heap key) ++
          m :: (levelFilter l i).dropWhile (keyLt l.heap key))) ∧
      (L < i → IsChain h2 i l.header_ (levelFilter l i)) := by
  intro i hi
  have hchainI : IsChain l.heap i l.header_ (levelFilter l i) := hw.isChain_level hi
  have hsplitI : levelFilter l i =
      (levelFilter l i).takeWhile (keyLt l.heap key) ++
      (levelFilter l i).dropWhile (keyLt l.heap key) :=
    (List.takeWhile_append_dropWhile _ _).symm
  have hchainI' := hchainI
  rw [hsplitI] at hchainI'
  obtain ⟨hsteps, htail⟩ := isChain_append hchainI'
  have hpred : ((levelFilter l i).takeWhile (keyLt l.heap key)).getLastD l.header_ =
      predAtLevel l key i := rfl
  rw [hpred] at hsteps htail
  have htIsub : ∀ x ∈ (levelFilter l i).takeWhile (keyLt l.heap key), x ∈ chain0 l :=
    fun x hx => levelFilter_sub _ ((List.takeWhile_sublist _).mem hx)
  have hdIsub : ∀ x ∈ (levelFilter l i).dropWhile (keyLt l.heap key), x ∈ chain0 l :=
    fun x hx => levelFilter_sub _ ((List.dropWhile_sublist _).mem hx)
  constructor
  · intro hiL
    -- the path to the predecessor is unchanged
    have hsteps2 : Steps h2 i l.header_
        ((levelFilter l i).takeWhile (keyLt l.heap key)) (predAtLevel l key i) := by
      rcases List.eq_nil_or_concat ((levelFilter l i).takeWhile (keyLt l.heap key)) with
        hnil | ⟨u, x, hconcat⟩
      · rw [hnil]
        have : predAtLevel l key i = l.header_ := by
          unfold predAtLevel
          rw [show (levelFilter l i).takeWhile (keyLt l.heap key) = [] from hnil]
          rfl
        rw [this]
        exact Steps.refl
      · apply steps_congr hsteps
        intro y hy
        have hxlast : predAtLevel l key i = x := by
          unfold predAtLevel
          rw [hconcat, List.concat_eq_append, getLastD_append_cons]
          rfl
        rw [hconcat, List.concat_eq_append] at hy
        rw [show l.header_ :: (u ++ [x]) = (l.header_ :: u) ++ [x] from rfl] at hy
        rw [List.dropLast_concat] at hy
        rcases List.mem_cons.mp hy with rfl | hyu
        · exact hS4 l.header_ i (hheadm) (fun _ => by
            rw [hxlast]
            intro hc
            exact hw.header_not_mem (hc ▸ htIsub x (by rw [hconcat]; simp)))
        · have hyc : y ∈ chain0 l := htIsub y (by rw [hconcat, List.concat_eq_append]; simp [hyu])
          refine hS4 y i (hfresh y hyc) (fun _ => ?_)
          rw [hxlast]
          have hnodupt : ((levelFilter l i).takeWhile (keyLt l.heap key)).Nodup :=
            List.Nodup.sublist (List.takeWhile_sublist _)
              (List.Nodup.sublist (List.filter_sublist _) hw.chain0_nodup)
          exact mem_dropLast_ne_last hnodupt (by rw [hconcat, List.concat_eq_append]) hyu
    -- the new node hangs after the predecessor, then the old suffix
    have htail2 : IsChain h2 i m ((levelFilter l i).dropWhile (keyLt l.heap key)) := by
      have hfm := hS2 i hiL
      cases hd : (levelFilter l i).dropWhile (keyLt l.heap key) with
      | nil =>
        rw [hd] at htail
        cases htail with
        | nil hfa =>
          rw [hfa] at hfm
          exact IsChain.nil hfm
      | cons b c =>
        rw [hd] at htail
        cases htail with
        | cons hfa hrest =>
          rw [hfa] at hfm
          refine IsChain.cons hfm (isChain_congr hrest ?_)
          intro y hy
          have hyd : y ∈ (levelFilter l i).dropWhile (keyLt l.heap key) := by
            rw [hd]
            exact hy
          have hyc : y ∈ chain0 l := hdIsub y hyd
          refine hS4 y i (hfresh y hyc) (fun _ => ?_)
          rcases predAtLevel_cases l key i with hp | hp
          · rw [hp]
            intro hc
            exact hw.header_not_mem (hc ▸ hyc)
          · intro hc
            have hnodupI : (levelFilter l i).Nodup :=
              List.Nodup.sublist (List.filter_sublist _) hw.chain0_nodup
            rw [hsplitI] at hnodupI
            rcases List.nodup_append.mp hnodupI with ⟨_, _, hdisj⟩
            exact hdisj (hc ▸ hp) hyd
    exact steps_isChain_append hsteps2 (IsChain.cons (hS1 i hiL) htail2)
  · intro hLi
    apply isChain_congr hchainI
    intro y hy
    rcases List.mem_cons.mp hy with rfl | hyc
    · exact hS4 l.header_ i hheadm (fun hiL => by omega)
    · exact hS4 y i (hfresh y (levelFilter_sub _ hyc)) (fun hiL => by omega)

/-- The record produced by insert_new_node, named for reuse in statements:
the spliced heap, one more allocated cell, the possibly raised current
maximum level, the incremented count, and the advanced random position. -/
def insertResultState (l : SkipList K V) (h2 : Heap K V) (cml2 g2 : Nat) : SkipList K V :=
  { l with
      heap := h2
      hsize := l.hsize + 1
      current_max_level_ := cml2
      element_count_ := l.element_count_ + 1
      gpos := g2 }

/-- Assembly of the insert branch: a state whose heap satisfies the
post-splice read facts is well-formed and its entry list is the sorted
insertion of the new pair. -/
theorem insert_wf_entries {l : SkipList K V} (hw : WF l) {key : K} {value : V}
    {h2 : Heap K V} {m L cml2 : Nat} (g2 : Nat)
    (hfn : l.find_node key = none)
    (hm : m = l.hsize)
    (hLle : L ≤ l.max_level_)
    (hcml_le : l.current_max_level_ ≤ cml2)
    (hLcml : L ≤ cml2)
    (hcml2le : cml2 ≤ l.max_level_)
    (hcml2cases : cml2 = L ∨ cml2 = l.current_max_level_)
    (hlen2old : ∀ x, x ≠ m → fwdLen h2 x = fwdLen l.heap x)
    (hlen2m : fwdLen h2 m = L + 1)
    (hkey2old : ∀ x, x ≠ m → keyD h2 x = keyD l.heap x)
    (hkey2m : keyD h2 m = key)
    (hval2old : ∀ x, x ≠ m → valD h2 x = valD l.heap x)
    (hval2m : valD h2 m = value)
    (hsome2old : ∀ x, x ≠ m → (h2 x).isSome = (l.heap x).isSome)
    (hsome2m : (h2 m).isSome = true)
    (hS1 : ∀ i, i ≤ L → fwd h2 (predAtLevel l key i) i = some m)
    (hS2 : ∀ i, i ≤ L → fwd h2 m i = fwd l.heap (predAtLevel l key i) i)
    (hS4 : ∀ x j, x ≠ m → (j ≤ L → x ≠ predAtLevel l key j) →
      fwd h2 x j = fwd l.heap x j) :
    WF (insertResultState l h2 cml2 g2) ∧
    entries (insertResultState l h2 cml2 g2) = upsert key value (entries l) ∧
    chain0 (insertResultState l h2 cml2 g2) =
      (chain0 l).takeWhile (keyLt l.heap key) ++
        m :: (chain0 l).dropWhile (keyLt l.heap key) := by
  have hfresh : ∀ x ∈ chain0 l, x ≠ m := by
    intro x hx hc
    have := (hw.valid x hx).1
    omega
  have hheadm : l.header_ ≠ m := by
    have := hw.header_lt
    omega
  have hchains := insert_level_chain hw key hheadm hfresh hS1 hS2 hS4
  set l2 : SkipList K V := insertResultState l h2 cml2 g2 with hl2
  -- the new level-i chains as lists
  have hnewchain : ∀ i, i ≤ l.max_level_ → IsChain h2 i l.header_
      (if i ≤ L then (levelFilter l i).takeWhile (keyLt l.heap key) ++
        m :: (levelFilter l i).dropWhile (keyLt l.heap key)
       else levelFilter l i) := by
    intro i hi
    by_cases hiL : i ≤ L
    · rw [if_pos hiL]
      exact (hchains i hi).1 hiL
    · rw [if_neg hiL]
      exact (hchains i hi).2 (by omega)
  -- lengths of the new chains are within the fuel bound
  have hchainlen : ∀ i, ((levelFilter l i).takeWhile (keyLt l.heap key) ++
      m :: (levelFilter l i).dropWhile (keyLt l.heap key)).length =
      (levelFilter l i).length + 1 := by
    intro i
    rw [List.length_append, List.length_cons]
    conv_rhs => rw [(List.takeWhile_append_dropWhile (keyLt l.heap key)
      (levelFilter l i)).symm]
    rw [List.length_append]
    omega
  have hlfl : ∀ i, (levelFilter l i).length ≤ (chain0 l).length :=
    fun i => List.length_filter_le _ _
  -- the new level-0 chain
  have hchain02 : chain0 l2 = (chain0 l).takeWhile (keyLt l.heap key) ++
      m :: (chain0 l).dropWhile (keyLt l.heap key) := by
    have hch := hnewchain 0 (Nat.zero_le _)
    rw [if_pos (Nat.zero_le _)] at hch
    have hconv : (levelFilter l 0).takeWhile (keyLt l.heap key) ++
        m :: (levelFilter l 0).dropWhile (keyLt l.heap key) =
        (chain0 l).takeWhile (keyLt l.heap key) ++
        m :: (chain0 l).dropWhile (keyLt l.heap key) := by
      rw [← hw.chain0_eq_filter]
    rw [hconv] at hch
    show (levelChainO l2 0).getD [] = _
    have hfuel : ((chain0 l).takeWhile (keyLt l.heap key) ++
        m :: (chain0 l).dropWhile (keyLt l.heap key)).length < l2.hsize + 2 := by
      have h1 : ((chain0 l).takeWhile (keyLt l.heap key) ++
          m :: (chain0 l).dropWhile (keyLt l.heap key)).length =
          (chain0 l).length + 1 := by
        rw [List.length_append, List.length_cons]
        conv_rhs => rw [chain0_split (l := l) key]
        rw [List.length_append]
        omega
      have h2 := hw.chain0_length_le
      show _ < l.hsize + 1 + 2
      omega
    rw [show levelChainO l2 0 = chainAtO h2 0 (l2.hsize + 2) l.header_ from rfl]
    rw [isChain_chainAtO hch hfuel]
    rfl
  -- membership facts about the split of the old chain
  have ht0sub : ∀ x ∈ (chain0 l).takeWhile (keyLt l.heap key), x ∈ chain0 l :=
    fun x hx => (List.takeWhile_sublist _).mem hx
  have hd0sub : ∀ x ∈ (chain0 l).dropWhile (keyLt l.heap key), x ∈ chain0 l :=
    fun x hx => (List.dropWhile_sublist _).mem hx
  have ht0lt : ∀ x ∈ (chain0 l).takeWhile (keyLt l.heap key), keyD l.heap x < key := by
    intro x hx
    have := List.mem_takeWhile_imp hx
    simpa [keyLt] using this
  have hd0gt := find_node_none_elim hw hfn
  have hmem2 : ∀ a, a ∈ chain0 l2 → a = m ∨ a ∈ chain0 l := by
    intro a ha
    rw [hchain02] at ha
    rcases List.mem_append.mp ha with h1 | h1
    · exact Or.inr (ht0sub a h1)
    · rcases List.mem_cons.mp h1 with h2 | h2
      · exact Or.inl h2
      · exact Or.inr (hd0sub a h2)
  -- the new level filters
  have hlf2 : ∀ i, levelFilter l2 i =
      (if i ≤ L then (levelFilter l i).takeWhile (keyLt l.heap key) ++
        m :: (levelFilter l i).dropWhile (keyLt l.heap key)
       else levelFilter l i) := by
    intro i
    have hft : ((chain0 l).takeWhile (keyLt l.heap key)).filter (nodeLevelGt h2 i) =
        (levelFilter l i).takeWhile (keyLt l.heap key) := by
      rw [takeWhile_levelFilter_eq hw key i]
      apply List.filter_congr
      intro a ha
      have ham : a ≠ m := hfresh a (ht0sub a ha)
      simp [nodeLevelGt, hlen2old a ham]
    have hfd : ((chain0 l).dropWhile (keyLt l.heap key)).filter (nodeLevelGt h2 i) =
        (levelFilter l i).dropWhile (keyLt l.heap key) := by
      rw [dropWhile_levelFilter_eq hw key i]
      apply List.filter_congr
      intro a ha
      have ham : a ≠ m := hfresh a (hd0sub a ha)
      simp [nodeLevelGt, hlen2old a ham]
    show (chain0 l2).filter (nodeLevelGt h2 i) = _
    rw [hchain02, List.filter_append, List.filter_cons, hft, hfd]
    by_cases hiL : i ≤ L
    · have hmq : nodeLevelGt h2 i m = true := by
        simp only [nodeLevelGt, decide_eq_true_eq, hlen2m]
        omega
      rw [if_pos hiL, hmq]
      simp
    · have hmq : nodeLevelGt h2 i m = false := by
        simp only [nodeLevelGt, hlen2m, decide_eq_false_iff_not]
        omega
      rw [if_neg hiL, hmq]
      simp only [Bool.false_eq_true, if_false]
      exact List.takeWhile_append_dropWhile _ _
  -- chain_ok of the new state
  have hchok : ∀ i, i ≤ l2.max_level_ → levelChainO l2 i = some (levelFilter l2 i) := by
    intro i hi
    have hch := hnewchain i hi
    rw [← hlf2 i] at hch
    rw [show levelChainO l2 i = chainAtO h2 i (l2.hsize + 2) l.header_ from rfl]
    apply isChain_chainAtO hch
    rw [hlf2 i]
    have hb := hw.chain0_length_le
    by_cases hiL : i ≤ L
    · rw [if_pos hiL, hchainlen i]
      have := hlfl i
      show _ < l.hsize + 1 + 2
      omega
    · rw [if_neg hiL]
      have := hlfl i
      show _ < l.hsize + 1 + 2
      omega
  -- well-formedness of the new state
  have hw2 : WF l2 := by
    refine ⟨hcml2le, by have := hw.header_lt; show l.header_ < l.hsize + 1; omega,
      ?_, hchok, ?_, ?_, ?_, ?_, ?_, ?_⟩
    · show fwdLen h2 l.header_ = l.max_level_ + 1
      rw [hlen2old l.header_ hheadm]
      exact hw.header_len
    · intro a ha
      rcases hmem2 a ha with rfl | hmem
      · refine ⟨by show a < l.hsize + 1; omega, hsome2m, Ne.symm hheadm⟩
      · rcases hw.valid a hmem with ⟨h1, h2v, h3⟩
        refine ⟨by show a < l.hsize + 1; omega, ?_, h3⟩
        show (h2 a).isSome = true
        rw [hsome2old a (hfresh a hmem)]
        exact h2v
    · show (l.header_ :: chain0 l2).Nodup
      rw [hchain02]
      have hre : l.header_ :: ((chain0 l).takeWhile (keyLt l.heap key) ++
          m :: (chain0 l).dropWhile (keyLt l.heap key)) =
          (l.header_ :: (chain0 l).takeWhile (keyLt l.heap key)) ++
          m :: (chain0 l).dropWhile (keyLt l.heap key) := by simp
      rw [hre, List.nodup_middle]
      constructor
      · intro b hb hmb
        subst hmb
        rcases List.mem_append.mp hb with h1 | h1
        · rcases List.mem_cons.mp h1 with h2 | h2
          · exact hheadm h2.symm
          · exact hfresh m (ht0sub m h2) rfl
        · exact hfresh m (hd0sub m h1) rfl
      · have hre2 : (l.header_ :: (chain0 l).takeWhile (keyLt l.heap key)) ++
            (chain0 l).dropWhile (keyLt l.heap key) = l.header_ :: chain0 l := by
          rw [List.cons_append]
          congr 1
          exact List.takeWhile_append_dropWhile _ _
        rw [hre2]
        exact hw.nodup
    · -- sortedness of keys
      rw [List.chain'_iff_pairwise, List.pairwise_map]
      rw [hchain02]
      rw [List.pairwise_append]
      have hpt : ((chain0 l).takeWhile (keyLt l.heap key)).Pairwise
          (fun a b => keyD l.heap a < keyD l.heap b) :=
        List.Pairwise.sublist (List.takeWhile_sublist _) hw.pairwise_keys
      have hpd : ((chain0 l).dropWhile (keyLt l.heap key)).Pairwise
          (fun a b => keyD l.heap a < keyD l.heap b) :=
        List.Pairwise.sublist (List.dropWhile_sublist _) hw.pairwise_keys
      refine ⟨?_, ?_, ?_⟩
      · apply List.Pairwise.imp_of_mem ?_ hpt
        intro a b ha hb hab
        rw [show keyD l2.heap a = keyD l.heap a from hkey2old a (hfresh a (ht0sub a ha)),
          show keyD l2.heap b = keyD l.heap b from hkey2old b (hfresh b (ht0sub b hb))]
        exact hab
      · rw [List.pairwise_cons]
        constructor
        · intro y hy
          rw [show keyD l2.heap m = key from hkey2m,
            show keyD l2.heap y = keyD l.heap y from hkey2old y (hfresh y (hd0sub y hy))]
          exact hd0gt y hy
        · apply List.Pairwise.imp_of_mem ?_ hpd
          intro a b ha hb hab
          rw [show keyD l2.heap a = keyD l.heap a from hkey2old a (hfresh a (hd0sub a ha)),
            show keyD l2.heap b = keyD l.heap b from hkey2old b (hfresh b (hd0sub b hb))]
          exact hab
      · intro a ha b hb
        have hak : keyD l2.heap a < key := by
          rw [show keyD l2.heap a = keyD l.heap a from hkey2old a (hfresh a (ht0sub a ha))]
          exact ht0lt a ha
        rcases List.mem_cons.mp hb with rfl | hbm
        · rw [show keyD l2.heap b = key from hkey2m]
          exact hak
        · rw [show keyD l2.heap b = keyD l.heap b from hkey2old b (hfresh b (hd0sub b hbm))]
          exact lt_trans hak (hd0gt b hbm)
    · show l.element_count_ + 1 = (chain0 l2).length
      rw [hchain02, List.length_append, List.length_cons, hw.count]
      conv_lhs => rw [chain0_split (l := l) key]
      rw [List.length_append]
      omega
    · intro a ha
      rcases hmem2 a ha with rfl | hmem
      · show fwdLen h2 a ≤ cml2 + 1
        rw [hlen2m]
        omega
      · show fwdLen h2 a ≤ cml2 + 1
        rw [hlen2old a (hfresh a hmem)]
        have := hw.levels_le a hmem
        omega
    · -- the top level is inhabited
      right
      show levelFilter l2 cml2 ≠ []
      rw [hlf2 cml2]
      by_cases hcL : cml2 ≤ L
      · rw [if_pos hcL]
        simp
      · rw [if_neg hcL]
        rcases hcml2cases with rfl | hc2
        · omega
        · rcases hw.top_nonempty with h0 | hne
          · omega
          · rw [hc2]
            exact hne
  refine ⟨hw2, ?_, hchain02⟩
  -- the new entry list is the sorted insertion
  unfold entries
  rw [hchain02]
  rw [List.map_append, List.map_cons]
  have hmt : ((chain0 l).takeWhile (keyLt l.heap key)).map
      (fun a => (keyD l2.heap a, valD l2.heap a)) =
      ((chain0 l).takeWhile (keyLt l.heap key)).map
      (fun a => (keyD l.heap a, valD l.heap a)) := by
    apply List.map_congr_left
    intro a ha
    have ham : a ≠ m := hfresh a (ht0sub a ha)
    show (keyD h2 a, valD h2 a) = _
    rw [hkey2old a ham, hval2old a ham]
  have hmd : ((chain0 l).dropWhile (keyLt l.heap key)).map
      (fun a => (keyD l2.heap a, valD l2.heap a)) =
      ((chain0 l).dropWhile (keyLt l.heap key)).map
      (fun a => (keyD l.heap a, valD l.heap a)) := by
    apply List.map_congr_left
    intro a ha
    have ham : a ≠ m := hfresh a (hd0sub a ha)
    show (keyD h2 a, valD h2 a) = _
    rw [hkey2old a ham, hval2old a ham]
  rw [hmt, hmd, show keyD l2.heap m = key from hkey2m, show valD l2.heap m = value from hval2m]
  have hup : upsert key value ((chain0 l).map (fun a => (keyD l.heap a, valD l.heap a))) =
      ((chain0 l).takeWhile (keyLt l.heap key)).map
        (fun a => (keyD l.heap a, valD l.heap a)) ++
      upsert key value (((chain0 l).dropWhile (keyLt l.heap key)).map
        (fun a => (keyD l.heap a, valD l.heap a))) := by
    conv_lhs => rw [chain0_split (l := l) key]
    rw [List.map_append]
    apply upsert_append_lt
    intro e he
    rw [List.mem_map] at he
    obtain ⟨a, ha, rfl⟩ := he
    exact ht0lt a ha
  rw [hup]
  congr 1
  cases hd : (chain0 l).dropWhile (keyLt l.heap key) with
  | nil => rfl
  | cons b d' =>
    have hbgt : key < keyD l.heap b := hd0gt b (by rw [hd]; simp)
    rw [List.map_cons]
    show ((key, value) :: (b :: d').map (fun a => (keyD l.heap a, valD l.heap a))) =
      (if (keyD l.heap b, valD l.heap b).1 < key then _
       else if (keyD l.heap b, valD l.heap b).1 = key then _
       else (key, value) :: (keyD l.heap b, valD l.heap b) ::
         d'.map (fun a => (keyD l.heap a, valD l.heap a)))
    rw [if_neg (by simp; exact le_of_lt hbgt), if_neg (by simp; exact (ne_of_gt hbgt))]
    rw [List.map_cons]

/-- Full description of the insert branch of put: a fresh node is allocated
and spliced in, the invariant is preserved, the entry list gains the new
pair at its sorted position, and element_count is incremented. -/
theorem put_insert_full {l : SkipList K V} (hw : WF l) {key : K} (value : V)
    (hfn : l.find_node key = none) :
    WF (l.put key value) ∧
    entries (l.put key value) = upsert key value (entries l) ∧
    (l.put key value).element_count_ = l.element_count_ + 1 ∧
    (l.put key value).hsize = l.hsize + 1 := by
  set L := (generate_random_level l.max_level_ l.gen_ l.gpos).1 with hLdef
  set g2 := (generate_random_level l.max_level_ l.gen_ l.gpos).2 with hg2def
  set preds := l.find_predecessors key with hpredsdef
  set ap := adjust_max_level_for_insertion l.current_max_level_ L l.header_ preds with hapdef
  set m := l.hsize with hmdef
  set h1 := hwrite l.heap m (some (create_node key value L)) with hh1def
  set h2 := spliceFold h1 m ap.2 (L + 1) with hh2def
  have hstate : l.put key value = insertResultState l h2 ap.1 g2 := by
    rw [put_eq_branches hw, hfn]
    rfl
  have hLle : L ≤ l.max_level_ := generate_random_level_le l.max_level_ l.gen_ l.gpos
  have hap1 : ap.1 = if l.current_max_level_ < L then L else l.current_max_level_ := by
    rw [hapdef]
    unfold adjust_max_level_for_insertion
    by_cases hc : l.current_max_level_ < L
    · rw [if_pos hc, if_pos hc]
    · rw [if_neg hc, if_neg hc]
  have hcml_le_ap : l.current_max_level_ ≤ ap.1 := by
    rw [hap1]
    by_cases hc : l.current_max_level_ < L
    · rw [if_pos hc]; omega
    · rw [if_neg hc]
  have hL_le_ap : L ≤ ap.1 := by
    rw [hap1]
    by_cases hc : l.current_max_level_ < L
    · rw [if_pos hc]
    · rw [if_neg hc]; omega
  have hap_le : ap.1 ≤ l.max_level_ := by
    rw [hap1]
    have := hw.cml_le
    by_cases hc : l.current_max_level_ < L
    · rw [if_pos hc]; omega
    · rw [if_neg hc]; omega
  have hapcases : ap.1 = L ∨ ap.1 = l.current_max_level_ := by
    rw [hap1]
    by_cases hc : l.current_max_level_ < L
    · rw [if_pos hc]; exact Or.inl rfl
    · rw [if_neg hc]; exact Or.inr rfl
  have hpreds2 : ∀ i, i ≤ L → ap.2.getD i none = some (predAtLevel l key i) := by
    intro i hi
    by_cases hc : l.current_max_level_ < L
    · have hap2 : ap.2 = (List.range' (l.current_max_level_ + 1)
          (L - l.current_max_level_)).foldl
          (fun ps j => ps.set j (some l.header_)) preds := by
        rw [hapdef]
        unfold adjust_max_level_for_insertion
        rw [if_pos hc]
      rw [hap2]
      rw [foldl_set_range'_getD (some l.header_) none (L - l.current_max_level_)
        (l.current_max_level_ + 1) preds
        (by rw [hpredsdef, find_predecessors_length]; have := hw.cml_le; omega) i]
      by_cases hi2 : l.current_max_level_ + 1 ≤ i ∧
          i < l.current_max_level_ + 1 + (L - l.current_max_level_)
      · rw [if_pos hi2, predAtLevel_high hw key (by omega)]
      · rw [if_neg hi2, hpredsdef, find_predecessors_spec hw key i, if_pos (by omega)]
    · have hap2 : ap.2 = preds := by
        rw [hapdef]
        unfold adjust_max_level_for_insertion
        rw [if_neg hc]
      rw [hap2, hpredsdef, find_predecessors_spec hw key i, if_pos (by omega)]
  have hfI : ∀ x j, x ≠ m → fwd h1 x j = fwd l.heap x j :=
    fun x j hx => fwd_hwrite_ne _ _ hx
  have hm1fwd : ∀ j, fwd h1 m j = none := by
    intro j
    rw [hh1def, fwd_hwrite_self]
    exact getD_replicate none (L + 1) j
  have hm1len : fwdLen h1 m = L + 1 := by
    rw [hh1def]
    simp [fwdLen, hwrite_self, create_node]
  have hPm : ∀ i, i ≤ L → predAtLevel l key i ≠ m := by
    intro i hi hc
    have := (predAtLevel_valid hw key (le_trans hi hLle)).1
    omega
  have hPlen1 : ∀ i, i ≤ L → i < fwdLen h1 (predAtLevel l key i) := by
    intro i hi
    rw [hh1def, fwdLen_hwrite_ne _ (hPm i hi)]
    exact (predAtLevel_valid hw key (le_trans hi hLle)).2
  obtain ⟨S1, S2, S3, S4, S5, S6, S7, S8⟩ :=
    spliceFold_spec hpreds2 hPm hPlen1 hm1len (L + 1) (le_refl _)
  have hlen2old : ∀ x, x ≠ m → fwdLen h2 x = fwdLen l.heap x := by
    intro x hx
    rw [hh2def, S5 x, hh1def, fwdLen_hwrite_ne _ hx]
  have hlen2m : fwdLen h2 m = L + 1 := by
    rw [hh2def, S5 m, hm1len]
  have hkey2old : ∀ x, x ≠ m → keyD h2 x = keyD l.heap x := by
    intro x hx
    rw [hh2def, S6 x, hh1def, keyD_hwrite_ne _ hx]
  have hkey2m : keyD h2 m = key := by
    rw [hh2def, S6 m, hh1def]
    simp [keyD, hwrite_self, create_node]
  have hval2old : ∀ x, x ≠ m → valD h2 x = valD l.heap x := by
    intro x hx
    rw [hh2def, S7 x, hh1def, valD_hwrite_ne _ hx]
  have hval2m : valD h2 m = value := by
    rw [hh2def, S7 m, hh1def]
    simp [valD, hwrite_self, create_node]
  have hsome2old : ∀ x, x ≠ m → (h2 x).isSome = (l.heap x).isSome := by
    intro x hx
    rw [hh2def, S8 x, hh1def, isSome_hwrite_ne _ hx]
  have hsome2m : (h2 m).isSome = true := by
    rw [hh2def, S8 m, hh1def, hwrite_self]
    rfl
  have hS1 : ∀ i, i ≤ L → fwd h2 (predAtLevel l key i) i = some m := by
    intro i hi
    rw [hh2def]
    exact S1 i (by omega)
  have hS2 : ∀ i, i ≤ L → fwd h2 m i = fwd l.heap (predAtLevel l key i) i := by
    intro i hi
    rw [hh2def, S2 i (by omega)]
    exact hfI _ i (hPm i hi)
  have hS4 : ∀ x j, x ≠ m → (j ≤ L → x ≠ predAtLevel l key j) →
      fwd h2 x j = fwd l.heap x j := by
    intro x j hxm hxp
    rw [hh2def, S4 x j hxm (fun hj => hxp (by omega))]
    exact hfI x j hxm
  obtain ⟨hwf2, hent2, _⟩ := insert_wf_entries hw g2 hfn hmdef hLle hcml_le_ap hL_le_ap
    hap_le hapcases hlen2old hlen2m hkey2old hkey2m hval2old hval2m hsome2old hsome2m
    hS1 hS2 hS4
  rw [hstate]
  exact ⟨hwf2, hent2, rfl, rfl⟩

/-- Partial execution of the unlink loop of remove: the first n levels
processed. -/
def discFold (h : Heap K V) (nodeAddr : Nat) (preds : List (Option Nat)) (n : Nat) :
    Heap K V :=
  (List.range n).foldl
    (fun hh i =>
      match preds.getD i none with
      | none => hh
      | some p =>
        if fwd hh p i = some nodeAddr then setFwd hh p i (fwd hh nodeAddr i) else hh)
    h

theorem discFold_succ (h : Heap K V) (nodeAddr : Nat) (preds : List (Option Nat)) (n : Nat) :
    discFold h nodeAddr preds (n + 1) =
      (match preds.getD n none with
       | none => discFold h nodeAddr preds n
       | some p =>
         if fwd (discFold h nodeAddr preds n) p n = some nodeAddr then
           setFwd (discFold h nodeAddr preds n) p n (fwd (discFold h nodeAddr preds n) nodeAddr n)
         else discFold h nodeAddr preds n) := by
  unfold discFold
  rw [List.range_succ, List.foldl_append]
  rfl

theorem disconnect_eq_discFold (h : Heap K V) (nodeAddr : Nat) (preds : List (Option Nat))
    (cml : Nat) :
    disconnect_node_from_levels h nodeAddr preds cml = discFold h nodeAddr preds (cml + 1) := rfl

/-- Effect of the unlink loop: at each processed level the predecessor is
rerouted past the removed node exactly when it pointed at it, and nothing
else changes. -/
theorem discFold_spec {h : Heap K V} {b : Nat} {preds : List (Option Nat)}
    {P : Nat → Nat} {N : Nat}
    (hP : ∀ i, i < N → preds.getD i none = some (P i))
    (hbP : ∀ i, b ≠ P i)
    (hPlen : ∀ i, i < N → i < fwdLen h (P i)) :
    ∀ n, n ≤ N →
      (∀ x j, (j < n → x ≠ P j) → fwd (discFold h b preds n) x j = fwd h x j) ∧
      (∀ j, j < n → fwd (discFold h b preds n) (P j) j =
        (if fwd h (P j) j = some b then fwd h b j else fwd h (P j) j)) ∧
      (∀ x, fwdLen (discFold h b preds n) x = fwdLen h x) ∧
      (∀ x, keyD (discFold h b preds n) x = keyD h x) ∧
      (∀ x, valD (discFold h b preds n) x = valD h x) ∧
      (∀ x, ((discFold h b preds n) x).isSome = (h x).isSome) := by
  intro n
  induction n with
  | zero =>
    intro _
    exact ⟨fun x j _ => rfl, fun j hj => by omega, fun x => rfl, fun x => rfl,
      fun x => rfl, fun x => rfl⟩
  | succ n ih =>
    intro hn1
    have hn : n < N := by omega
    obtain ⟨ih1, ih2, ih3, ih4, ih5, ih6⟩ := ih (by omega)
    have hstep : discFold h b preds (n + 1) =
        (if fwd (discFold h b preds n) (P n) n = some b then
          setFwd (discFold h b preds n) (P n) n (fwd (discFold h b preds n) b n)
        else discFold h b preds n) := by
      rw [discFold_succ, hP n hn]
    have hPn : fwd (discFold h b preds n) (P n) n = fwd h (P n) n :=
      ih1 (P n) n (fun _ => by omega)
    have hbn : fwd (discFold h b preds n) b n = fwd h b n :=
      ih1 b n (fun _ => hbP n)
    rw [hstep, hPn, hbn]
    by_cases hc : fwd h (P n) n = some b
    · rw [if_pos hc]
      refine ⟨?_, ?_, ?_, ?_, ?_, ?_⟩
      · intro x j hxp
        by_cases hjn : j = n
        · subst hjn
          rw [fwd_setFwd_ne (Or.inl (hxp (by omega)))]
          exact ih1 x j (fun hj => hxp (by omega))
        · rw [fwd_setFwd_ne (Or.inr hjn)]
          exact ih1 x j (fun hj => hxp (by omega))
      · intro j hj
        by_cases hjn : j = n
        · subst hjn
          rw [fwd_setFwd_self (by rw [ih3]; exact hPlen j hn), if_pos hc]
        · rw [fwd_setFwd_ne (Or.inr hjn)]
          exact ih2 j (by omega)
      · intro x
        rw [show fwdLen (setFwd (discFold h b preds n) (P n) n (fwd h b n)) x =
          fwdLen (discFold h b preds n) x from fwdLen_setFwd _ _ _]
        exact ih3 x
      · intro x
        rw [show keyD (setFwd (discFold h b preds n) (P n) n (fwd h b n)) x =
          keyD (discFold h b preds n) x from keyD_setFwd _ _ _]
        exact ih4 x
      · intro x
        rw [show valD (setFwd (discFold h b preds n) (P n) n (fwd h b n)) x =
          valD (discFold h b preds n) x from valD_setFwd _ _ _]
        exact ih5 x
      · intro x
        rw [show ((setFwd (discFold h b preds n) (P n) n (fwd h b n)) x).isSome =
          ((discFold h b preds n) x).isSome from isSome_setFwd _ _ _]
        exact ih6 x
    · rw [if_neg hc]
      refine ⟨?_, ?_, ih3, ih4, ih5, ih6⟩
      · intro x j hxp
        exact ih1 x j (fun hj => hxp (by omega))
      · intro j hj
        by_cases hjn : j = n
        · subst hjn
          rw [if_neg hc]
          exact hPn
        · exact ih2 j (by omega)

/-- Reconstruction of every level chain after the unlink loop and the free
of the removed node: the removed node disappears from the levels it occupied
and every other level is untouched. -/
theorem delete_level_chain {l : SkipList K V} (hw : WF l) (key : K) {b : Nat} {d' : List Nat}
    {h2 : Heap K V}
    (hd0 : (chain0 l).dropWhile (keyLt l.heap key) = b :: d')
    (hbk : keyD l.heap b = key)
    (hfwd_pred : ∀ i, i ≤ l.current_max_level_ → fwd h2 (predAtLevel l key i) i =
      (if fwd l.heap (predAtLevel l key i) i = some b then fwd l.heap b i
       else fwd l.heap (predAtLevel l key i) i))
    (hfwd_other : ∀ x j, x ≠ b → (j ≤ l.current_max_level_ → x ≠ predAtLevel l key j) →
      fwd h2 x j = fwd l.heap x j) :
    ∀ i, i ≤ l.max_level_ →
      IsChain h2 i l.header_
        ((((chain0 l).takeWhile (keyLt l.heap key)) ++ d').filter (nodeLevelGt l.heap i)) := by
  have hsplit : chain0 l = (chain0 l).takeWhile (keyLt l.heap key) ++ b :: d' := by
    rw [← hd0]
    exact chain0_split key
  have hbmem : b ∈ chain0 l := by
    rw [hsplit]
    simp
  have hbheader : l.header_ ≠ b := fun hc => (hw.valid b hbmem).2.2 hc.symm
  have hnodup0 := hw.chain0_nodup
  rw [hsplit] at hnodup0
  have hbt0 : b ∉ (chain0 l).takeWhile (keyLt l.heap key) := by
    rcases List.nodup_append.mp hnodup0 with ⟨_, _, hdisj⟩
    intro hc
    exact hdisj hc (by simp)
  have hbd' : b ∉ d' := by
    rcases List.nodup_append.mp hnodup0 with ⟨_, hnd2, _⟩
    exact (List.nodup_cons.mp hnd2).1
  have ht0d' : ∀ x ∈ (chain0 l).takeWhile (keyLt l.heap key), x ∉ b :: d' := by
    rcases List.nodup_append.mp hnodup0 with ⟨_, _, hdisj⟩
    intro x hx hc
    exact hdisj hx hc
  have hbP : ∀ j, b ≠ predAtLevel l key j := by
    intro j hc
    rcases predAtLevel_cases l key j with hp | hp
    · exact hbheader (hc ▸ hp).symm
    · rw [← hc] at hp
      have := List.mem_takeWhile_imp hp
      simp only [keyLt, hbk, decide_eq_true_eq] at this
      exact lt_irrefl key this
  intro i hi
  have hchainI : IsChain l.heap i l.header_ (levelFilter l i) := hw.isChain_level hi
  have htI : (levelFilter l i).takeWhile (keyLt l.heap key) =
      ((chain0 l).takeWhile (keyLt l.heap key)).filter (nodeLevelGt l.heap i) :=
    takeWhile_levelFilter_eq hw key i
  have hdI : (levelFilter l i).dropWhile (keyLt l.heap key) =
      ((chain0 l).dropWhile (keyLt l.heap key)).filter (nodeLevelGt l.heap i) :=
    dropWhile_levelFilter_eq hw key i
  have hgoalsplit : (((chain0 l).takeWhile (keyLt l.heap key)) ++ d').filter
      (nodeLevelGt l.heap i) =
      ((chain0 l).takeWhile (keyLt l.heap key)).filter (nodeLevelGt l.heap i) ++
      d'.filter (nodeLevelGt l.heap i) := List.filter_append _ _
  -- above the current maximum level everything is empty
  by_cases hicml : i ≤ l.current_max_level_
  · -- split the old level chain at the predecessor
    have hsplitI : levelFilter l i =
        (levelFilter l i).takeWhile (keyLt l.heap key) ++
        (levelFilter l i).dropWhile (keyLt l.heap key) :=
      (List.takeWhile_append_dropWhile _ _).symm
    have hchainI' := hchainI
    rw [hsplitI] at hchainI'
    obtain ⟨hsteps, htail⟩ := isChain_append hchainI'
    have hpred : ((levelFilter l i).takeWhile (keyLt l.heap key)).getLastD l.header_ =
        predAtLevel l key i := rfl
    rw [hpred] at hsteps htail
    have htIsub : ∀ x ∈ (levelFilter l i).takeWhile (keyLt l.heap key), x ∈ chain0 l :=
      fun x hx => levelFilter_sub _ ((List.takeWhile_sublist _).mem hx)
    -- the path to the predecessor is unchanged
    have hsteps2 : Steps h2 i l.header_
        ((levelFilter l i).takeWhile (keyLt l.heap key)) (predAtLevel l key i) := by
      rcases List.eq_nil_or_concat ((levelFilter l i).takeWhile (keyLt l.heap key)) with
        hnil | ⟨u, x, hconcat⟩
      · rw [hnil]
        have hph : predAtLevel l key i = l.header_ := by
          unfold predAtLevel
          rw [show (levelFilter l i).takeWhile (keyLt l.heap key) = [] from hnil]
          rfl
        rw [hph]
        exact Steps.refl
      · apply steps_congr hsteps
        intro y hy
        have hxlast : predAtLevel l key i = x := by
          unfold predAtLevel
          rw [hconcat, List.concat_eq_append, getLastD_append_cons]
          rfl
        rw [hconcat, List.concat_eq_append] at hy
        rw [show l.header_ :: (u ++ [x]) = (l.header_ :: u) ++ [x] from rfl] at hy
        rw [List.dropLast_concat] at hy
        rcases List.mem_cons.mp hy with rfl | hyu
        · exact hfwd_other l.header_ i hbheader (fun _ => by
            rw [hxlast]
            intro hc
            exact hw.header_not_mem (hc ▸ htIsub x (by rw [hconcat]; simp)))
        · have hyt : y ∈ (levelFilter l i).takeWhile (keyLt l.heap key) := by
            rw [hconcat, List.concat_eq_append]
            simp [hyu]
          have hyne_b : y ≠ b := by
            intro hc
            have := List.mem_takeWhile_imp hyt
            rw [hc] at this
            simp only [keyLt, hbk, decide_eq_true_eq] at this
            exact lt_irrefl key this
          refine hfwd_other y i hyne_b (fun _ => ?_)
          rw [hxlast]
          have hnodupt : ((levelFilter l i).takeWhile (keyLt l.heap key)).Nodup :=
            List.Nodup.sublist (List.takeWhile_sublist _)
              (List.Nodup.sublist (List.filter_sublist _) hw.chain0_nodup)
          exact mem_dropLast_ne_last hnodupt (by rw [hconcat, List.concat_eq_append]) hyu
    have hdIsplit : (levelFilter l i).dropWhile (keyLt l.heap key) =
        ((b :: d').filter (nodeLevelGt l.heap i)) := by
      rw [hdI, hd0]
    have hd'mem : ∀ y ∈ d'.filter (nodeLevelGt l.heap i), y ∈ chain0 l := by
      intro y hy
      rw [hsplit]
      have := (List.mem_filter.mp hy).1
      simp [this]
    have hd'ne_b : ∀ y ∈ d'.filter (nodeLevelGt l.heap i), y ≠ b := by
      intro y hy hc
      exact hbd' (hc ▸ (List.mem_filter.mp hy).1)
    have hd'ne_P : ∀ y ∈ d'.filter (nodeLevelGt l.heap i), y ≠ predAtLevel l key i := by
      intro y hy hc
      rcases predAtLevel_cases l key i with hp | hp
      · exact hw.header_not_mem ((hc.trans hp) ▸ hd'mem y hy)
      · have hyt0 : predAtLevel l key i ∈ (chain0 l).takeWhile (keyLt l.heap key) := by
          have := (List.mem_filter.mp (htI ▸ hp)).1
          exact this
        exact ht0d' _ hyt0 (by
          rw [← hc] at hyt0 ⊢
          exact List.mem_cons_of_mem b (List.mem_of_mem_filter hy))
    -- the suffix chain after the predecessor, with b removed where present
    have htail2 : IsChain h2 i (predAtLevel l key i) (d'.filter (nodeLevelGt l.heap i)) := by
      have hfp := hfwd_pred i hicml
      by_cases hqb : nodeLevelGt l.heap i b = true
      · -- the node participates in level i: predecessor pointed at it
        have hdib : (levelFilter l i).dropWhile (keyLt l.heap key) =
            b :: d'.filter (nodeLevelGt l.heap i) := by
          rw [hdIsplit, List.filter_cons, hqb]
          simp
        rw [hdib] at htail
        cases htail with
        | cons hfa hrest =>
          rw [if_pos hfa] at hfp
          cases hr : d'.filter (nodeLevelGt l.heap i) with
          | nil =>
            rw [hr] at hrest
            cases hrest with
            | nil hfb =>
              rw [hfb] at hfp
              exact IsChain.nil hfp
          | cons b2 r2 =>
            rw [hr] at hrest
            cases hrest with
            | cons hfb hrest2 =>
              rw [hfb] at hfp
              refine IsChain.cons hfp (isChain_congr hrest2 ?_)
              intro y hy
              have hymem : y ∈ d'.filter (nodeLevelGt l.heap i) := by
                rw [hr]
                exact hy
              exact hfwd_other y i (hd'ne_b y hymem) (fun _ => hd'ne_P y hymem)
      · -- the node does not participate in level i: nothing pointed at it here
        have hqb2 : nodeLevelGt l.heap i b = false := by
          cases hx : nodeLevelGt l.heap i b
          · rfl
          · exact absurd hx hqb
        have hdib : (levelFilter l i).dropWhile (keyLt l.heap key) =
            d'.filter (nodeLevelGt l.heap i) := by
          rw [hdIsplit, List.filter_cons, hqb2]
          simp
        rw [hdib] at htail
        have hnotb : fwd l.heap (predAtLevel l key i) i ≠ some b := by
          cases hr : d'.filter (nodeLevelGt l.heap i) with
          | nil =>
            rw [hr] at htail
            cases htail with
            | nil hfa => rw [hfa]; intro hc; cases hc
          | cons b2 r2 =>
            rw [hr] at htail
            cases htail with
            | cons hfa _ =>
              rw [hfa]
              intro hc
              cases hc
              exact hbd' (List.mem_of_mem_filter
                (show b ∈ d'.filter (nodeLevelGt l.heap i) by rw [hr]; simp))
        rw [if_neg hnotb] at hfp
        apply isChain_congr htail
        intro y hy
        rcases List.mem_cons.mp hy with rfl | hym
        · exact hfp
        · exact hfwd_other y i (hd'ne_b y hym) (fun _ => hd'ne_P y hym)
    have hjoin := steps_isChain_append hsteps2 htail2
    rw [hgoalsplit, ← htI]
    exact hjoin
  · -- above current_max_level the chain is empty before and after
    have hempty : levelFilter l i = [] := by
      unfold levelFilter
      rw [List.filter_eq_nil_iff]
      intro a ha
      have := hw.levels_le a ha
      simp only [nodeLevelGt, decide_eq_true_eq]
      omega
    have hgoalempty : (((chain0 l).takeWhile (keyLt l.heap key)) ++ d').filter
        (nodeLevelGt l.heap i) = [] := by
      rw [List.filter_eq_nil_iff]
      intro a ha
      have hamem : a ∈ chain0 l := by
        rcases List.mem_append.mp ha with h1 | h1
        · exact (List.takeWhile_sublist _).mem h1
        · rw [hsplit]
          simp [h1]
      have := hw.levels_le a hamem
      simp only [nodeLevelGt, decide_eq_true_eq]
      omega
    rw [hgoalempty]
    rw [hempty] at hchainI
    cases hchainI with
    | nil hfa =>
      refine IsChain.nil ?_
      rw [hfwd_other l.header_ i hbheader (fun hc => by omega)]
      exact hfa

/-- Full description of a successful remove: the matching node is unlinked
from every level and freed, the invariant is preserved, the entry list loses
exactly that key, element_count decreases by one, and the current maximum
level is shrunk while the header has no successor there. -/
theorem remove_found_full {l : SkipList K V} (hw : WF l) {key : K} {b : Nat}
    (hfn : l.find_node key = some b) :
    WF (l.remove key).1 ∧
    entries (l.remove key).1 = eraseKey key (entries l) ∧
    (l.remove key).2 = true ∧
    (l.remove key).1.element_count_ + 1 = l.element_count_ ∧
    ((l.remove key).1.current_max_level_ = 0 ∨
      fwd (l.remove key).1.heap l.header_ (l.remove key).1.current_max_level_ ≠ none) ∧
    (∀ j, (l.remove key).1.current_max_level_ < j → j ≤ l.current_max_level_ →
      fwd (l.remove key).1.heap l.header_ j = none) ∧
    (l.remove key).1.current_max_level_ ≤ l.current_max_level_ := by
  obtain ⟨hd0head, hbk, hbmem⟩ := find_node_some_elim hw hfn
  have hd0cons : ∃ d', (chain0 l).dropWhile (keyLt l.heap key) = b :: d' := by
    cases hd : (chain0 l).dropWhile (keyLt l.heap key) with
    | nil => rw [hd] at hd0head; cases hd0head
    | cons x d' =>
      rw [hd] at hd0head
      simp at hd0head
      exact ⟨d', by rw [hd0head]⟩
  obtain ⟨d', hd0⟩ := hd0cons
  set h1' := discFold l.heap b (l.find_predecessors key) (l.current_max_level_ + 1) with hh1
  set h2' := hwrite h1' b none with hh2
  have hstate : l.remove key =
      ({ l with
          heap := h2'
          current_max_level_ := adjust_max_level h2' l.header_ l.current_max_level_
          element_count_ := l.element_count_ - 1 }, true) := by
    rw [remove_eq_branches hw, hfn]
    rfl
  have hsplit : chain0 l = (chain0 l).takeWhile (keyLt l.heap key) ++ b :: d' := by
    rw [← hd0]
    exact chain0_split key
  have hnodup0 := hw.chain0_nodup
  rw [hsplit] at hnodup0
  have hbt0 : b ∉ (chain0 l).takeWhile (keyLt l.heap key) := by
    rcases List.nodup_append.mp hnodup0 with ⟨_, _, hdisj⟩
    intro hc
    exact hdisj hc (by simp)
  have hbd' : b ∉ d' := by
    rcases List.nodup_append.mp hnodup0 with ⟨_, hnd2, _⟩
    exact (List.nodup_cons.mp hnd2).1
  have hbheader : b ≠ l.header_ := (hw.valid b hbmem).2.2
  have hbP : ∀ j, b ≠ predAtLevel l key j := by
    intro j hc
    rcases predAtLevel_cases l key j with hp | hp
    · exact hbheader (hc ▸ hp)
    · rw [← hc] at hp
      have := List.mem_takeWhile_imp hp
      simp only [keyLt, hbk, decide_eq_true_eq] at this
      exact lt_irrefl key this
  have hP : ∀ i, i < l.current_max_level_ + 1 →
      (l.find_predecessors key).getD i none = some (predAtLevel l key i) := by
    intro i hi
    rw [find_predecessors_spec hw key i, if_pos (by omega)]
  have hPlen : ∀ i, i < l.current_max_level_ + 1 →
      i < fwdLen l.heap (predAtLevel l key i) := by
    intro i hi
    exact (predAtLevel_valid hw key (le_trans (by omega : i ≤ l.current_max_level_)
      hw.cml_le)).2
  obtain ⟨D1, D2, D3, D4, D5, D6⟩ :=
    discFold_spec hP hbP hPlen (l.current_max_level_ + 1) (le_refl _)
  have hfwd_pred : ∀ i, i ≤ l.current_max_level_ → fwd h2' (predAtLevel l key i) i =
      (if fwd l.heap (predAtLevel l key i) i = some b then fwd l.heap b i
       else fwd l.heap (predAtLevel l key i) i) := by
    intro i hi
    rw [hh2, fwd_hwrite_ne _ _ (Ne.symm (hbP i)), hh1]
    exact D2 i (by omega)
  have hfwd_other : ∀ x j, x ≠ b → (j ≤ l.current_max_level_ → x ≠ predAtLevel l key j) →
      fwd h2' x j = fwd l.heap x j := by
    intro x j hxb hxp
    rw [hh2, fwd_hwrite_ne _ _ hxb, hh1]
    exact D1 x j (fun hj => hxp (by omega))
  have hlen2 : ∀ x, x ≠ b → fwdLen h2' x = fwdLen l.heap x := by
    intro x hx
    rw [hh2, fwdLen_hwrite_ne _ hx, hh1, D3]
  have hkey2 : ∀ x, x ≠ b → keyD h2' x = keyD l.heap x := by
    intro x hx
    rw [hh2, keyD_hwrite_ne _ hx, hh1, D4]
  have hval2 : ∀ x, x ≠ b → valD h2' x = valD l.heap x := by
    intro x hx
    rw [hh2, valD_hwrite_ne _ hx, hh1, D5]
  have hsome2 : ∀ x, x ≠ b → (h2' x).isSome = (l.heap x).isSome := by
    intro x hx
    rw [hh2, isSome_hwrite_ne _ hx, hh1, D6]
  have hchains := delete_level_chain hw key hd0 hbk hfwd_pred hfwd_other
  set cml3 := adjust_max_level h2' l.header_ l.current_max_level_ with hcml3
  set l3 : SkipList K V := { l with
      heap := h2'
      current_max_level_ := cml3
      element_count_ := l.element_count_ - 1 } with hl3
  have hsub : ∀ x ∈ (chain0 l).takeWhile (keyLt l.heap key) ++ d', x ∈ chain0 l := by
    intro x hx
    rw [hsplit]
    rcases List.mem_append.mp hx with h1 | h1
    · simp [h1]
    · simp [h1]
  have hneb : ∀ x ∈ (chain0 l).takeWhile (keyLt l.heap key) ++ d', x ≠ b := by
    intro x hx hc
    rcases List.mem_append.mp hx with h1 | h1
    · exact hbt0 (hc ▸ h1)
    · exact hbd' (hc ▸ h1)
  have hlen_td : ((chain0 l).takeWhile (keyLt l.heap key) ++ d').length + 1 =
      (chain0 l).length := by
    conv_rhs => rw [hsplit]
    rw [List.length_append, List.length_append, List.length_cons]
    omega
  have hq0 : ∀ x ∈ chain0 l, nodeLevelGt l.heap 0 x = true := by
    intro x hx
    have h0 := hw.chain0_eq_filter
    rw [h0] at hx
    exact (List.mem_filter.mp hx).2
  have hfilter0 : ((chain0 l).takeWhile (keyLt l.heap key) ++ d').filter
      (nodeLevelGt l.heap 0) = (chain0 l).takeWhile (keyLt l.heap key) ++ d' := by
    rw [List.filter_eq_self]
    intro a ha
    exact hq0 a (hsub a ha)
  have hchain03 : chain0 l3 = (chain0 l).takeWhile (keyLt l.heap key) ++ d' := by
    have hch := hchains 0 (Nat.zero_le _)
    rw [hfilter0] at hch
    show (levelChainO l3 0).getD [] = _
    rw [show levelChainO l3 0 = chainAtO h2' 0 (l3.hsize + 2) l.header_ from rfl]
    rw [isChain_chainAtO hch (by
      have := hw.chain0_length_le
      show _ < l.hsize + 2
      omega)]
    rfl
  have hlf3 : ∀ i, levelFilter l3 i =
      ((chain0 l).takeWhile (keyLt l.heap key) ++ d').filter (nodeLevelGt l.heap i) := by
    intro i
    show (chain0 l3).filter (nodeLevelGt h2' i) = _
    rw [hchain03]
    apply List.filter_congr
    intro a ha
    simp [nodeLevelGt, hlen2 a (hneb a ha)]
  obtain ⟨A1, A2, A3⟩ := adjust_max_level_spec h2' l.header_ l.current_max_level_
  have hemptyiff : ∀ j, j ≤ l.max_level_ → (fwd h2' l.header_ j = none ↔
      ((chain0 l).takeWhile (keyLt l.heap key) ++ d').filter (nodeLevelGt l.heap j) = []) := by
    intro j hj
    have hch := hchains j hj
    constructor
    · intro hnone
      cases hfj : ((chain0 l).takeWhile (keyLt l.heap key) ++ d').filter
          (nodeLevelGt l.heap j) with
      | nil => rfl
      | cons c cs =>
        rw [hfj] at hch
        cases hch with
        | cons hfa _ =>
          rw [hfa] at hnone
          cases hnone
    · intro hnil
      rw [hnil] at hch
      cases hch with
      | nil hfa => exact hfa
  have hcml3_le_ml : cml3 ≤ l.max_level_ := le_trans A1 hw.cml_le
  have hwf3 : WF l3 := by
    refine ⟨hcml3_le_ml, hw.header_lt, ?_, ?_, ?_, ?_, ?_, ?_, ?_, ?_⟩
    · show fwdLen h2' l.header_ = l.max_level_ + 1
      rw [hlen2 _ (Ne.symm hbheader)]
      exact hw.header_len
    · intro i hi
      rw [show levelChainO l3 i = chainAtO h2' i (l3.hsize + 2) l.header_ from rfl, hlf3 i]
      apply isChain_chainAtO (hchains i hi)
      have h1 := List.length_filter_le (nodeLevelGt l.heap i)
        ((chain0 l).takeWhile (keyLt l.heap key) ++ d')
      have h2 := hw.chain0_length_le
      show _ < l.hsize + 2
      omega
    · intro a ha
      rw [hchain03] at ha
      rcases hw.valid a (hsub a ha) with ⟨h1, h2v, h3⟩
      refine ⟨h1, ?_, h3⟩
      rw [hsome2 a (hneb a ha)]
      exact h2v
    · show (l.header_ :: chain0 l3).Nodup
      rw [hchain03]
      have hsubl : List.Sublist
          (l.header_ :: ((chain0 l).takeWhile (keyLt l.heap key) ++ d'))
          (l.header_ :: ((chain0 l).takeWhile (keyLt l.heap key) ++ b :: d')) := by
        apply List.Sublist.cons₂
        apply List.Sublist.append_left
        exact List.sublist_cons_self b d'
      have hold := hw.nodup
      rw [hsplit] at hold
      exact List.Nodup.sublist hsubl hold
    · rw [List.chain'_iff_pairwise, List.pairwise_map]
      rw [hchain03]
      have holdp : ((chain0 l).takeWhile (keyLt l.heap key) ++ d').Pairwise
          (fun a c => keyD l.heap a < keyD l.heap c) := by
        apply List.Pairwise.sublist ?_ hw.pairwise_keys
        conv_rhs => rw [hsplit]
        apply List.Sublist.append_left
        exact List.sublist_cons_self b d'
      apply List.Pairwise.imp_of_mem ?_ holdp
      intro a c ha hc hlt
      show keyD l3.heap a < keyD l3.heap c
      rw [show keyD l3.heap a = keyD h2' a from rfl, show keyD l3.heap c = keyD h2' c from rfl,
        hkey2 a (hneb a ha), hkey2 c (hneb c hc)]
      exact hlt
    · show l.element_count_ - 1 = (chain0 l3).length
      rw [hchain03]
      have := hw.count
      omega
    · intro a ha
      rw [hchain03] at ha
      show fwdLen h2' a ≤ cml3 + 1
      rw [hlen2 a (hneb a ha)]
      by_cases hc : cml3 = l.current_max_level_
      · rw [hc]
        exact hw.levels_le a (hsub a ha)
      · have hlt : cml3 < l.current_max_level_ := lt_of_le_of_ne A1 hc
        have hmlle := hw.cml_le
        by_contra hgt
        push_neg at hgt
        have hfj := A3 (cml3 + 1) (by omega) (by omega)
        have hnil := (hemptyiff (cml3 + 1) (by omega)).mp hfj
        have hmemf : a ∈ ((chain0 l).takeWhile (keyLt l.heap key) ++ d').filter
            (nodeLevelGt l.heap (cml3 + 1)) := by
          rw [List.mem_filter]
          refine ⟨ha, ?_⟩
          simp only [nodeLevelGt, decide_eq_true_eq]
          omega
        rw [hnil] at hmemf
        simp at hmemf
    · rcases A2 with h0 | hne
      · exact Or.inl h0
      · right
        show levelFilter l3 cml3 ≠ []
        rw [hlf3 cml3]
        intro hnil
        exact hne ((hemptyiff cml3 hcml3_le_ml).mpr hnil)
  have hentries3 : entries l3 = eraseKey key (entries l) := by
    unfold entries
    rw [hchain03, List.map_append]
    have hmt : ((chain0 l).takeWhile (keyLt l.heap key)).map
        (fun a => (keyD l3.heap a, valD l3.heap a)) =
        ((chain0 l).takeWhile (keyLt l.heap key)).map
        (fun a => (keyD l.heap a, valD l.heap a)) := by
      apply List.map_congr_left
      intro a ha
      have hab : a ≠ b := hneb a (List.mem_append.mpr (Or.inl ha))
      show (keyD h2' a, valD h2' a) = _
      rw [hkey2 a hab, hval2 a hab]
    have hmd : d'.map (fun a => (keyD l3.heap a, valD l3.heap a)) =
        d'.map (fun a => (keyD l.heap a, valD l.heap a)) := by
      apply List.map_congr_left
      intro a ha
      have hab : a ≠ b := hneb a (List.mem_append.mpr (Or.inr ha))
      show (keyD h2' a, valD h2' a) = _
      rw [hkey2 a hab, hval2 a hab]
    rw [hmt, hmd]
    conv_rhs => rw [hsplit, List.map_append, List.map_cons]
    rw [eraseKey_append_lt (by
      intro e he
      rw [List.mem_map] at he
      obtain ⟨a, ha, rfl⟩ := he
      have := List.mem_takeWhile_imp ha
      simpa [keyLt] using this)]
    congr 1
    show _ = (if (keyD l.heap b, valD l.heap b).1 < key then _
      else if (keyD l.heap b, valD l.heap b).1 = key then
        d'.map (fun a => (keyD l.heap a, valD l.heap a)) else _)
    rw [if_neg (by rw [hbk]; exact lt_irrefl key), if_pos hbk]
  have hcount1 : 1 ≤ l.element_count_ := by
    have := hw.count
    have hb2 : (chain0 l).length ≥ 1 := by
      rw [hsplit]
      rw [List.length_append, List.length_cons]
      omega
    omega
  rw [hstate]
  refine ⟨hwf3, hentries3, rfl, ?_, ?_, ?_, A1⟩
  · show l.element_count_ - 1 + 1 = l.element_count_
    omega
  · exact A2
  · exact A3

/-- put preserves the invariant and acts as sorted insert-or-replace on the
entry list, in both branches. -/
theorem put_full {l : SkipList K V} (hw : WF l) (key : K) (value : V) :
    WF (l.put key value) ∧ entries (l.put key value) = upsert key value (entries l) := by
  cases hfn : l.find_node key with
  | some b =>
    obtain ⟨h1, h2, _⟩ := put_update_full hw value hfn
    exact ⟨h1, h2⟩
  | none =>
    obtain ⟨h1, h2, _⟩ := put_insert_full hw value hfn
    exact ⟨h1, h2⟩

theorem remove_absent {l : SkipList K V} (hw : WF l) {key : K}
    (hfn : l.find_node key = none) : l.remove key = (l, false) := by
  rw [remove_eq_branches hw, hfn]

theorem find_node_none_iff {l : SkipList K V} (hw : WF l) (key : K) :
    l.find_node key = none ↔ key ∉ keysOf l := by
  rw [← find_node_isSome_iff hw]
  cases l.find_node key <;> simp

theorem lookupKey_eq_none_iff {key : K} {xs : List (K × V)} :
    lookupKey key xs = none ↔ key ∉ xs.map Prod.fst := by
  rw [← lookupKey_isSome_iff]
  cases lookupKey key xs <;> simp

theorem WF.pairwise_keysOf {l : SkipList K V} (hw : WF l) :
    (keysOf l).Pairwise (· < ·) := by
  unfold keysOf
  rw [List.pairwise_map]
  exact hw.pairwise_keys

/-- A freshly constructed list is well-formed and empty. -/
theorem WF_mkSkipList (max_level : Nat) (gen : Nat → Bool) :
    WF (mkSkipList max_level gen : SkipList K V) ∧
    entries (mkSkipList max_level gen : SkipList K V) = [] := by
  have hfwd : ∀ i, fwd (mkSkipList max_level gen : SkipList K V).heap 0 i = none := by
    intro i
    show fwd (hwrite (fun _ => none) 0
      (some (create_node (default : K) (default : V) max_level))) 0 i = none
    rw [fwd_hwrite_self]
    exact getD_replicate none _ i
  have hch : ∀ i, levelChainO (mkSkipList max_level gen : SkipList K V) i = some [] := by
    intro i
    show chainAtO _ i 3 0 = some []
    unfold chainAtO
    rw [hfwd i]
  have hchain0 : chain0 (mkSkipList max_level gen : SkipList K V) = [] := by
    unfold chain0
    rw [hch 0]
    rfl
  refine ⟨⟨Nat.zero_le _, Nat.lt_succ_self 0, ?_, ?_, ?_, ?_, ?_, ?_, ?_, Or.inl rfl⟩, ?_⟩
  · show fwdLen (hwrite (fun _ => none) 0
      (some (create_node (default : K) (default : V) max_level))) 0 = max_level + 1
    simp [fwdLen, hwrite_self, create_node]
  · intro i _
    rw [hch i]
    unfold levelFilter
    rw [hchain0]
    rfl
  · rw [hchain0]
    intro a ha
    cases ha
  · rw [hchain0]
    simp
  · rw [hchain0]
    simp
  · rw [hchain0]
    rfl
  · rw [hchain0]
    intro a ha
    cases ha
  · unfold entries
    rw [hchain0]
    rfl

/-- C1 (claim theorem): put followed by get on the same key returns the
stored value and contains reports true; in general get returns the value
associated to the key in the entry list (the first-match lookup on the
sorted association list of stored pairs), hence the stored value when the
key is present and none when it is absent. -/
theorem claim_C1_put_get_roundtrip {K V : Type} [LinearOrder K] [Inhabited K] [Inhabited V]
    (l : SkipList K V) (k : K) (v : V) (hw : WF l) :
    (l.put k v).get k = some v ∧
    (l.put k v).contains k = true ∧
    l.get k = lookupKey k (entries l) ∧
    (k ∉ keysOf l → l.get k = none) := by
  obtain ⟨hw2, hent2⟩ := put_full hw k v
  have hget : (l.put k v).get k = some v := by
    rw [get_spec hw2, hent2]
    exact lookupKey_upsert_self k v (entries l)
  refine ⟨hget, ?_, get_spec hw k, ?_⟩
  · rw [contains_spec hw2, hget]
    rfl
  · intro habs
    rw [get_spec hw k]
    rw [lookupKey_eq_none_iff, entries_map_fst]
    exact habs

theorem claim_C1_witness :
    ((mkSkipList 3 (fun _ => false) : SkipList Nat Nat).put 5 7).get 5 = some 7 ∧
    ((mkSkipList 3 (fun _ => false) : SkipList Nat Nat).put 5 7).contains 5 = true ∧
    (mkSkipList 3 (fun _ => false) : SkipList Nat Nat).get 5 =
      lookupKey 5 (entries (mkSkipList 3 (fun _ => false) : SkipList Nat Nat)) ∧
    (5 ∉ keysOf (mkSkipList 3 (fun _ => false) : SkipList Nat Nat) →
      (mkSkipList 3 (fun _ => false) : SkipList Nat Nat).get 5 = none) :=
  claim_C1_put_get_roundtrip (mkSkipList 3 (fun _ => false)) 5 7
    (WF_mkSkipList 3 (fun _ => false)).1

/-- C2 (claim theorem): remove returns true exactly when the key was
present; after a successful removal the key reads as absent and size has
decreased by exactly one; removing an absent key returns false and leaves
the state unchanged; and a second remove of the same key immediately after a
successful one returns false. -/
theorem claim_C2_remove_correct {K V : Type} [LinearOrder K] [Inhabited K] [Inhabited V]
    (l : SkipList K V) (k : K) (hw : WF l) :
    ((l.remove k).2 = true ↔ k ∈ keysOf l) ∧
    ((l.remove k).2 = true →
      (l.remove k).1.get k = none ∧ (l.remove k).1.size + 1 = l.size) ∧
    ((l.remove k).2 = false → (l.remove k).1 = l) ∧
    ((l.remove k).2 = true → ((l.remove k).1.remove k).2 = false) := by
  cases hfn : l.find_node k with
  | none =>
    have habs : k ∉ keysOf l := (find_node_none_iff hw k).mp hfn
    have hst := remove_absent hw hfn
    rw [hst]
    refine ⟨?_, ?_, ?_, ?_⟩
    · simp only [Bool.false_eq_true, false_iff]
      exact habs
    · intro hc
      cases hc
    · intro _
      rfl
    · intro hc
      cases hc
  | some b =>
    obtain ⟨hwf3, hent3, htrue, hcount, _, _, _⟩ := remove_found_full hw hfn
    have hmem : k ∈ keysOf l := by
      rw [← find_node_isSome_iff hw]
      rw [hfn]
      rfl
    have hkeys3 : k ∉ keysOf (l.remove k).1 := by
      have hnone : lookupKey k (entries (l.remove k).1) = none := by
        rw [hent3]
        apply lookupKey_eraseKey_self
        rw [entries_map_fst]
        exact hw.pairwise_keysOf
      rw [lookupKey_eq_none_iff, entries_map_fst] at hnone
      exact hnone
    refine ⟨?_, ?_, ?_, ?_⟩
    · rw [htrue]
      simp only [true_iff]
      exact hmem
    · intro _
      constructor
      · rw [get_spec hwf3, hent3]
        apply lookupKey_eraseKey_self
        rw [entries_map_fst]
        exact hw.pairwise_keysOf
      · exact hcount
    · intro hc
      rw [htrue] at hc
      cases hc
    · intro _
      have hfn3 : (l.remove k).1.find_node k = none := (find_node_none_iff hwf3 k).mpr hkeys3
      rw [remove_absent hwf3 hfn3]

theorem claim_C2_witness :
    let l := ((mkSkipList 3 (fun _ => false) : SkipList Nat Nat).put 5 7)
    ((l.remove 5).2 = true ↔ 5 ∈ keysOf l) ∧
    ((l.remove 5).2 = true →
      (l.remove 5).1.get 5 = none ∧ (l.remove 5).1.size + 1 = l.size) ∧
    ((l.remove 5).2 = false → (l.remove 5).1 = l) ∧
    ((l.remove 5).2 = true → ((l.remove 5).1.remove 5).2 = false) :=
  claim_C2_remove_correct ((mkSkipList 3 (fun _ => false)).put 5 7) 5
    (put_full (WF_mkSkipList 3 (fun _ => false)).1 5 7).1

/-- C3 (claim theorem): putting an already present key overwrites the value
in place: get then returns the new value, no node is allocated (the
allocation counter is unchanged), every node keeps its forward-vector length
(its level), current_max_level is unchanged, and element_count (hence size)
is unchanged. -/
theorem claim_C3_update_in_place {K V : Type} [LinearOrder K] [Inhabited K] [Inhabited V]
    (l : SkipList K V) (k : K) (v2 : V) (hw : WF l) (hmem : k ∈ keysOf l) :
    (l.put k v2).get k = some v2 ∧
    (l.put k v2).hsize = l.hsize ∧
    (∀ x, fwdLen (l.put k v2).heap x = fwdLen l.heap x) ∧
    (l.put k v2).current_max_level_ = l.current_max_level_ ∧
    (l.put k v2).element_count_ = l.element_count_ ∧
    (l.put k v2).size = l.size := by
  have hfs : (l.find_node k).isSome = true := (find_node_isSome_iff hw k).mpr hmem
  obtain ⟨b, hfn⟩ := Option.isSome_iff_exists.mp hfs
  obtain ⟨hwf2, hent2, _, hhsize, hcml, hcount, _, hflen⟩ := put_update_full hw v2 hfn
  refine ⟨?_, hhsize, hflen, hcml, hcount, hcount⟩
  rw [get_spec hwf2, hent2]
  exact lookupKey_upsert_self k v2 (entries l)

theorem claim_C3_witness :
    let l := ((mkSkipList 3 (fun _ => false) : SkipList Nat Nat).put 5 7)
    5 ∈ keysOf l ∧
    ((l.put 5 9).get 5 = some 9 ∧
    (l.put 5 9).hsize = l.hsize ∧
    (∀ x, fwdLen (l.put 5 9).heap x = fwdLen l.heap x) ∧
    (l.put 5 9).current_max_level_ = l.current_max_level_ ∧
    (l.put 5 9).element_count_ = l.element_count_ ∧
    (l.put 5 9).size = l.size) :=
  ⟨by decide,
    claim_C3_update_in_place ((mkSkipList 3 (fun _ => false)).put 5 7) 5 9
      (put_full (WF_mkSkipList 3 (fun _ => false)).1 5 7).1 (by decide)⟩

/-- C4 (claim theorem): the mutating operations put and remove preserve the
structural invariant WF — current_max_level bounded by max_level,
element_count equal to the number of nodes on the level-0 chain, every level
chain strictly increasing in key and equal to the sub-list of the level-0
chain made of nodes whose level reaches it.  The remaining public operations
(get, contains, size, empty) are modelled as pure value-returning functions
because the source mutates nothing in them, so they preserve every state
property trivially; the constructor establishes the invariant. -/
theorem claim_C4_invariant_preserved {K V : Type} [LinearOrder K] [Inhabited K] [Inhabited V]
    (l : SkipList K V) (k : K) (v : V) (hw : WF l) :
    WF (l.put k v) ∧ WF (l.remove k).1 := by
  refine ⟨(put_full hw k v).1, ?_⟩
  cases hfn : l.find_node k with
  | none => rw [remove_absent hw hfn]; exact hw
  | some b => exact (remove_found_full hw hfn).1

theorem claim_C4_witness :
    WF ((mkSkipList 3 (fun _ => false) : SkipList Nat Nat).put 5 7) ∧
    WF ((mkSkipList 3 (fun _ => false) : SkipList Nat Nat).remove 5).1 :=
  claim_C4_invariant_preserved (mkSkipList 3 (fun _ => false)) 5 7
    (WF_mkSkipList 3 (fun _ => false)).1

/-- C6 (claim theorem): after a successful remove the current maximum level
has been decremented while it was positive and the header had no successor
at it: the resulting level does not exceed the old one, the header has a
successor at the resulting level unless it is 0, and the header has no
successor at any level strictly between the resulting and the old maximum. -/
theorem claim_C6_level_shrink {K V : Type} [LinearOrder K] [Inhabited K] [Inhabited V]
    (l : SkipList K V) (k : K) (hw : WF l) (hret : (l.remove k).2 = true) :
    (l.remove k).1.current_max_level_ ≤ l.current_max_level_ ∧
    ((l.remove k).1.current_max_level_ = 0 ∨
      fwd (l.remove k).1.heap l.header_ (l.remove k).1.current_max_level_ ≠ none) ∧
    (∀ j, (l.remove k).1.current_max_level_ < j → j ≤ l.current_max_level_ →
      fwd (l.remove k).1.heap l.header_ j = none) := by
  cases hfn : l.find_node k with
  | none =>
    rw [remove_absent hw hfn] at hret
    cases hret
  | some b =>
    obtain ⟨_, _, _, _, h5, h6, h7⟩ := remove_found_full hw hfn
    exact ⟨h7, h5, h6⟩

theorem claim_C6_witness :
    let l := ((mkSkipList 3 (fun _ => true) : SkipList Nat Nat).put 5 7)
    ((l.remove 5).2 = true) ∧
    ((l.remove 5).1.current_max_level_ ≤ l.current_max_level_ ∧
    ((l.remove 5).1.current_max_level_ = 0 ∨
      fwd (l.remove 5).1.heap l.header_ (l.remove 5).1.current_max_level_ ≠ none) ∧
    (∀ j, (l.remove 5).1.current_max_level_ < j → j ≤ l.current_max_level_ →
      fwd (l.remove 5).1.heap l.header_ j = none)) :=
  ⟨by decide,
    claim_C6_level_shrink ((mkSkipList 3 (fun _ => true)).put 5 7) 5
      (put_full (WF_mkSkipList 3 (fun _ => true)).1 5 7).1 (by decide)⟩

/-- C9 (claim theorem): put and remove of one key leave the binding of every
other key unchanged. -/
theorem claim_C9_frame {K V : Type} [LinearOrder K] [Inhabited K] [Inhabited V]
    (l : SkipList K V) (k k2 : K) (v : V) (hw : WF l) (hne : k2 ≠ k) :
    (l.put k v).get k2 = l.get k2 ∧ ((l.remove k).1).get k2 = l.get k2 := by
  constructor
  · obtain ⟨hw2, hent2⟩ := put_full hw k v
    rw [get_spec hw2, hent2, get_spec hw k2]
    exact lookupKey_upsert_ne v hne (entries l)
  · cases hfn : l.find_node k with
    | none => rw [remove_absent hw hfn]
    | some b =>
      obtain ⟨hwf3, hent3, _⟩ := remove_found_full hw hfn
      rw [get_spec hwf3, hent3, get_spec hw k2]
      exact lookupKey_eraseKey_ne hne (entries l)

theorem claim_C9_witness :
    (2 : Nat) ≠ 5 ∧
    ((((mkSkipList 3 (fun _ => false) : SkipList Nat Nat).put 2 4).put 5 7).get 2 =
      ((mkSkipList 3 (fun _ => false) : SkipList Nat Nat).put 2 4).get 2 ∧
    ((((mkSkipList 3 (fun _ => false) : SkipList Nat Nat).put 2 4).remove 5).1).get 2 =
      ((mkSkipList 3 (fun _ => false) : SkipList Nat Nat).put 2 4).get 2) :=
  ⟨by decide,
    claim_C9_frame ((mkSkipList 3 (fun _ => false)).put 2 4) 5 2 7
      (put_full (WF_mkSkipList 3 (fun _ => false)).1 2 4).1 (by decide)⟩

/- ===== Model of src/xsf_skip_list.h ===== -/

/-- The coin of XSFSkipList::get_random_level: `rand() % 2` as a C truth
value.  `rand()` reads hidden process-global state: it is modelled as a
read-only stream r of outcomes with an explicit position threaded through
the calls — the position is shared by every XSFSkipList instance of the
process, unlike the momu member generator. -/
def xsfCoin (r : Nat → Nat) (n : Nat) : Bool := r n % 2 != 0

/-- Model of xsf_skip_list::XSFSkipList.  The node layout (key, value,
forward vector of length node_level_ + 1) is the same as the momu Node, so
the same Heap is used.  There are no generator fields: the source's
randomness is the process-global rand(). -/
structure XSFSkipList (K V : Type) where
  max_level_ : Nat
  skip_list_level_ : Nat
  header_ : Nat
  element_count_ : Nat
  heap : Heap K V
  hsize : Nat

/-- The XSFSkipList constructor: level 0, count 0, header node with default
key and value at level max_level.  It takes no seed argument. -/
def mkXSFSkipList (max_level : Nat) : XSFSkipList K V :=
  { max_level_ := max_level
    skip_list_level_ := 0
    header_ := 0
    element_count_ := 0
    heap := hwrite (fun _ => none) 0 (some (create_node default default max_level))
    hsize := 1 }

/-- The XSFSkipList fields read as a momu SkipList state.  The two classes
share the node layout and their traversal loops are the same code line for
line, so the momu traversal definitions apply verbatim; the momu-only
generator fields are supplied explicitly. -/
def XSFSkipList.toSkipList (l : XSFSkipList K V) (g : Nat → Bool) (p : Nat) :
    SkipList K V :=
  { max_level_ := l.max_level_
    current_max_level_ := l.skip_list_level_
    header_ := l.header_
    element_count_ := l.element_count_
    heap := l.heap
    hsize := l.hsize
    gen_ := g
    gpos := p }

/-- Model of XSFSkipList::get_random_level:
while (rand() % 2 && k < max_level_) k++.  Returns the level and the new
rand-stream position. -/
def XSFSkipList.get_random_level (l : XSFSkipList K V) (r : Nat → Nat) (p : Nat) :
    Nat × Nat :=
  coin_level_loop l.max_level_ (xsfCoin r) (l.max_level_ + 1) 0 p

/-- Model of XSFSkipList::search_element: the for/while descent from
skip_list_level_ to 0 followed by the level-0 key test; returns the found
value (the out-parameter) or none.  The loops are the same as the momu
traversal, so the embedding reuses those definitions. -/
def XSFSkipList.search_element (l : XSFSkipList K V) (key : K) : Option V :=
  match get_target_node l.heap
      (traverse_loop l.heap l.hsize key l.header_ l.skip_list_level_) key with
  | none => none
  | some a =>
    match l.heap a with
    | none => none
    | some n => some n.value_

/-- Model of XSFSkipList::insert_element.  The descent fills update[] (sized
max_level_ + 1, memset to nullptr) for levels skip_list_level_..0 and leaves
current at the level-0 predecessor; a matching level-0 successor gets its
value overwritten (return 1), otherwise a node of random level is spliced in
and element_count_ incremented (return 0).  Returns the new state, the int
return value and the new rand-stream position. -/
def XSFSkipList.insert_element (l : XSFSkipList K V) (key : K) (value : V)
    (r : Nat → Nat) (p : Nat) : XSFSkipList K V × Nat × Nat :=
  let update := traverse_and_collect l.heap l.hsize key l.header_ l.skip_list_level_
      (List.replicate (l.max_level_ + 1) none)
  let current := traverse_loop l.heap l.hsize key l.header_ l.skip_list_level_
  match get_node_at_level_zero l.heap current key with
  | some existing =>
    ({ l with heap := update_existing_node l.heap existing value }, 1, p)
  | none =>
    let rl := l.get_random_level r p
    let ap := adjust_max_level_for_insertion l.skip_list_level_ rl.1 l.header_ update
    let h1 := hwrite l.heap l.hsize (some (create_node key value rl.1))
    ({ l with
        heap := insert_node_at_all_levels h1 l.hsize ap.2 rl.1
        hsize := l.hsize + 1
        skip_list_level_ := ap.1
        element_count_ := l.element_count_ + 1 }, 0, rl.2)

/-- Model of XSFSkipList::delete_element (void in the source): unlink at
levels 0..skip_list_level_ where the recorded predecessor points at the
node, then shrink skip_list_level_ while the header has no successor there,
then free the node and decrement the count. -/
def XSFSkipList.delete_element (l : XSFSkipList K V) (key : K) : XSFSkipList K V :=
  let update := traverse_and_collect l.heap l.hsize key l.header_ l.skip_list_level_
      (List.replicate (l.max_level_ + 1) none)
  let current := traverse_loop l.heap l.hsize key l.header_ l.skip_list_level_
  match get_node_at_level_zero l.heap current key with
  | none => l
  | some nodeAddr =>
    let h1 := disconnect_node_from_levels l.heap nodeAddr update l.skip_list_level_
    { l with
        heap := hwrite h1 nodeAddr none
        skip_list_level_ := adjust_max_level h1 l.header_ l.skip_list_level_
        element_count_ := l.element_count_ - 1 }

/-- Model of XSFSkipList::size. -/
def XSFSkipList.size (l : XSFSkipList K V) : Nat := l.element_count_

theorem search_element_eq_get (l : XSFSkipList K V) (key : K) (g : Nat → Bool)
    (p : Nat) : l.search_element key = (l.toSkipList g p).get key := rfl

/-- XSF insert_element agrees with momu put on the common state when the
rand coin stream is installed as the generator: same resulting fields, and
the int return is 1 exactly on the update branch. -/
theorem insert_element_eq_put {l : XSFSkipList K V} {r : Nat → Nat} {p : Nat}
    (key : K) (value : V) (hw : WF (l.toSkipList (xsfCoin r) p)) :
    ((l.insert_element key value r p).1).toSkipList (xsfCoin r)
        (l.insert_element key value r p).2.2 =
      (l.toSkipList (xsfCoin r) p).put key value ∧
    (l.insert_element key value r p).2.1 =
      (if ((l.toSkipList (xsfCoin r) p).find_node key).isSome then 1 else 0) := by
  have hdef : l.insert_element key value r p =
      (match get_node_at_level_zero l.heap
          (traverse_loop l.heap l.hsize key l.header_ l.skip_list_level_) key with
        | some existing =>
          ({ l with heap := update_existing_node l.heap existing value }, 1, p)
        | none =>
          let rl := l.get_random_level r p
          let ap := adjust_max_level_for_insertion l.skip_list_level_ rl.1 l.header_
            (traverse_and_collect l.heap l.hsize key l.header_ l.skip_list_level_
              (List.replicate (l.max_level_ + 1) none))
          let h1 := hwrite l.heap l.hsize (some (create_node key value rl.1))
          ({ l with
              heap := insert_node_at_all_levels h1 l.hsize ap.2 rl.1
              hsize := l.hsize + 1
              skip_list_level_ := ap.1
              element_count_ := l.element_count_ + 1 }, 0, rl.2)) := rfl
  have hfneq : (l.toSkipList (xsfCoin r) p).find_node key =
      get_node_at_level_zero l.heap
        (traverse_loop l.heap l.hsize key l.header_ l.skip_list_level_) key := rfl
  rw [put_eq_branches hw key value, hdef, hfneq]
  cases hb : get_node_at_level_zero l.heap
      (traverse_loop l.heap l.hsize key l.header_ l.skip_list_level_) key with
  | some existing => exact ⟨rfl, rfl⟩
  | none => exact ⟨rfl, rfl⟩

/-- C5 (claim theorem): both random level generators (momu
generate_random_level over the member coin stream, and XSF get_random_level
over the global rand stream) return exactly the length of the initial run of
coin successes capped at max_level, and in particular a value in
[0, max_level] for every sequence of coin outcomes. -/
theorem claim_C5_random_level {K V : Type} [LinearOrder K] [Inhabited K] [Inhabited V]
    (max_level : Nat) (g : Nat → Bool) (p : Nat) (l : XSFSkipList K V)
    (r : Nat → Nat) (q : Nat) :
    (generate_random_level max_level g p).1 ≤ max_level ∧
    (generate_random_level max_level g p).1 = successRun g p max_level ∧
    (l.get_random_level r q).1 ≤ l.max_level_ ∧
    (l.get_random_level r q).1 = successRun (xsfCoin r) q l.max_level_ := by
  have h3 : l.get_random_level r q = generate_random_level l.max_level_ (xsfCoin r) q := rfl
  refine ⟨generate_random_level_le max_level g p,
    generate_random_level_spec max_level g p, ?_, ?_⟩
  · rw [h3]
    exact generate_random_level_le _ _ _
  · rw [h3]
    exact generate_random_level_spec _ _ _

/-- C10 (claim theorem): XSFSkipList::insert_element returns 1 exactly when
the key was already present — in which case the stored value is overwritten
(a subsequent search finds the new value) and element_count and the
allocation counter are unchanged — and returns 0 exactly when the key was
absent — in which case a node is newly allocated and spliced in (a
subsequent search finds the value) and element_count is incremented. -/
theorem claim_C10_insert_element {K V : Type} [LinearOrder K] [Inhabited K] [Inhabited V]
    (l : XSFSkipList K V) (key : K) (value : V) (r : Nat → Nat) (p : Nat)
    (hw : WF (l.toSkipList (xsfCoin r) p)) :
    ((l.insert_element key value r p).2.1 = 1 ↔
      key ∈ keysOf (l.toSkipList (xsfCoin r) p)) ∧
    ((l.insert_element key value r p).2.1 = 0 ↔
      key ∉ keysOf (l.toSkipList (xsfCoin r) p)) ∧
    (l.insert_element key value r p).1.search_element key = some value ∧
    (key ∈ keysOf (l.toSkipList (xsfCoin r) p) →
      (l.insert_element key value r p).1.element_count_ = l.element_count_ ∧
      (l.insert_element key value r p).1.hsize = l.hsize) ∧
    (key ∉ keysOf (l.toSkipList (xsfCoin r) p) →
      (l.insert_element key value r p).1.element_count_ = l.element_count_ + 1 ∧
      (l.insert_element key value r p).1.hsize = l.hsize + 1) := by
  obtain ⟨hst, hret⟩ := insert_element_eq_put key value hw
  have hcount : (l.insert_element key value r p).1.element_count_ =
      ((l.toSkipList (xsfCoin r) p).put key value).element_count_ := by
    have h := congrArg SkipList.element_count_ hst
    exact h
  have hhsize : (l.insert_element key value r p).1.hsize =
      ((l.toSkipList (xsfCoin r) p).put key value).hsize := by
    have h := congrArg SkipList.hsize hst
    exact h
  have hget : (l.insert_element key value r p).1.search_element key =
      ((l.toSkipList (xsfCoin r) p).put key value).get key := by
    rw [search_element_eq_get _ key (xsfCoin r)
      (l.insert_element key value r p).2.2, hst]
  cases hfn : (l.toSkipList (xsfCoin r) p).find_node key with
  | some b =>
    have hm : key ∈ keysOf (l.toSkipList (xsfCoin r) p) := by
      rw [← find_node_isSome_iff hw, hfn]
      rfl
    have hr1 : (l.insert_element key value r p).2.1 = 1 := by
      rw [hret, hfn]
      rfl
    obtain ⟨hw2, hent2, _, hhs, _, hcnt, _, _⟩ := put_update_full hw value hfn
    refine ⟨⟨fun _ => hm, fun _ => hr1⟩, ?_, ?_, ?_, fun hnm => absurd hm hnm⟩
    · constructor
      · intro h0
        rw [hr1] at h0
        cases h0
      · intro hnm
        exact absurd hm hnm
    · rw [hget, get_spec hw2, hent2]
      exact lookupKey_upsert_self key value _
    · intro _
      refine ⟨?_, ?_⟩
      · rw [hcount, hcnt]
        rfl
      · rw [hhsize, hhs]
        rfl
  | none =>
    have hnm : key ∉ keysOf (l.toSkipList (xsfCoin r) p) :=
      (find_node_none_iff hw key).mp hfn
    have hr0 : (l.insert_element key value r p).2.1 = 0 := by
      rw [hret, hfn]
      rfl
    obtain ⟨hw2, hent2, hcnt, hhs⟩ := put_insert_full hw value hfn
    refine ⟨?_, ⟨fun _ => hnm, fun _ => hr0⟩, ?_, fun hmem => absurd hmem hnm, ?_⟩
    · constructor
      · intro h1
        rw [hr0] at h1
        cases h1
      · intro hmem
        exact absurd hmem hnm
    · rw [hget, get_spec hw2, hent2]
      exact lookupKey_upsert_self key value _
    · intro _
      refine ⟨?_, ?_⟩
      · rw [hcount, hcnt]
        rfl
      · rw [hhsize, hhs]
        rfl

theorem claim_C10_witness :
    (((mkXSFSkipList 3 : XSFSkipList Nat Nat).insert_element 5 7 (fun _ => 0) 0).2.1 = 1 ↔
      5 ∈ keysOf ((mkXSFSkipList 3 : XSFSkipList Nat Nat).toSkipList
        (xsfCoin (fun _ => 0)) 0)) ∧
    (((mkXSFSkipList 3 : XSFSkipList Nat Nat).insert_element 5 7 (fun _ => 0) 0).2.1 = 0 ↔
      5 ∉ keysOf ((mkXSFSkipList 3 : XSFSkipList Nat Nat).toSkipList
        (xsfCoin (fun _ => 0)) 0)) ∧
    ((mkXSFSkipList 3 : XSFSkipList Nat Nat).insert_element 5 7
      (fun _ => 0) 0).1.search_element 5 = some 7 ∧
    (5 ∈ keysOf ((mkXSFSkipList 3 : XSFSkipList Nat Nat).toSkipList
        (xsfCoin (fun _ => 0)) 0) →
      ((mkXSFSkipList 3 : XSFSkipList Nat Nat).insert_element 5 7
        (fun _ => 0) 0).1.element_count_ = (mkXSFSkipList 3 : XSFSkipList Nat Nat).element_count_ ∧
      ((mkXSFSkipList 3 : XSFSkipList Nat Nat).insert_element 5 7
        (fun _ => 0) 0).1.hsize = (mkXSFSkipList 3 : XSFSkipList Nat Nat).hsize) ∧
    (5 ∉ keysOf ((mkXSFSkipList 3 : XSFSkipList Nat Nat).toSkipList
        (xsfCoin (fun _ => 0)) 0) →
      ((mkXSFSkipList 3 : XSFSkipList Nat Nat).insert_element 5 7
        (fun _ => 0) 0).1.element_count_ = (mkXSFSkipList 3 : XSFSkipList Nat Nat).element_count_ + 1 ∧
      ((mkXSFSkipList 3 : XSFSkipList Nat Nat).insert_element 5 7
        (fun _ => 0) 0).1.hsize = (mkXSFSkipList 3 : XSFSkipList Nat Nat).hsize + 1) :=
  claim_C10_insert_element (mkXSFSkipList 3) 5 7 (fun _ => 0) 0
    (WF_mkSkipList 3 (xsfCoin (fun _ => 0))).1

/- ===== Locking model (C7) ===== -/

/-- The mutex objects of the two headers.  momu::skip_list::SkipList holds a
`std::mutex mutex_` member — one distinct mutex per instance, identified here
by an owner tag — while xsf_skip_list.h declares a single namespace-scope
`std::mutex mtx` shared by every XSFSkipList instance of the process. -/
inductive LockId where
  | instanceMutex : Nat → LockId
  | xsfGlobalMtx : LockId
  deriving DecidableEq

/-- A lock acquisition or release event. -/
inductive LockEv where
  | acquire : LockId → LockEv
  | release : LockId → LockEv
  deriving DecidableEq

/-- Lock events of momu SkipList::put run on the instance tagged o: the body
is scoped by `std::lock_guard<std::mutex> lock(mutex_)`, so the member mutex
is acquired on entry and released on every exit path. -/
def momuPutLockTrace (o : Nat) : List LockEv :=
  [LockEv.acquire (LockId.instanceMutex o), LockEv.release (LockId.instanceMutex o)]

/-- Lock events of momu SkipList::get (same lock_guard scoping). -/
def momuGetLockTrace (o : Nat) : List LockEv :=
  [LockEv.acquire (LockId.instanceMutex o), LockEv.release (LockId.instanceMutex o)]

/-- Lock events of momu SkipList::contains (same lock_guard scoping). -/
def momuContainsLockTrace (o : Nat) : List LockEv :=
  [LockEv.acquire (LockId.instanceMutex o), LockEv.release (LockId.instanceMutex o)]

/-- Lock events of momu SkipList::remove (same lock_guard scoping). -/
def momuRemoveLockTrace (o : Nat) : List LockEv :=
  [LockEv.acquire (LockId.instanceMutex o), LockEv.release (LockId.instanceMutex o)]

/-- Lock events of XSFSkipList::insert_element: mtx.lock() on entry and
mtx.unlock() before each of the two returns — always on the namespace-scope
mutex, whatever instance (o) is operated on. -/
def xsfInsertLockTrace (_ : Nat) : List LockEv :=
  [LockEv.acquire LockId.xsfGlobalMtx, LockEv.release LockId.xsfGlobalMtx]

/-- Lock events of XSFSkipList::delete_element: mtx.lock() on entry,
mtx.unlock() at the single exit, again on the namespace-scope mutex. -/
def xsfDeleteLockTrace (_ : Nat) : List LockEv :=
  [LockEv.acquire LockId.xsfGlobalMtx, LockEv.release LockId.xsfGlobalMtx]

/-- Lock events of XSFSkipList::search_element: the function body contains no
locking statement at all. -/
def xsfSearchLockTrace (_ : Nat) : List LockEv := []

/-- The property C7 asserts of one public operation, phrased from the spec:
run on the instance tagged o, the operation's lock trace is exactly one
acquisition of that instance's own mutex followed by its release — so the
lock is owned by the instance, held for the whole call and released on every
exit path. -/
def opUsesOwnInstanceLock (tr : Nat → List LockEv) : Prop :=
  ∀ o, tr o = [LockEv.acquire (LockId.instanceMutex o),
    LockEv.release (LockId.instanceMutex o)]

/-- C7 (claim theorem, amended): the momu implementation satisfies the claim
— each of put, get, contains and remove acquires the calling instance's own
mutex on entry and releases it on every exit path.  In the XSF
implementation, insert_element and delete_element do acquire and release a
mutex on every path, but it is the single namespace-scope mutex shared by
all instances rather than a lock owned by the instance, and search_element
acquires no lock at all. -/
theorem claim_C7_locking :
    opUsesOwnInstanceLock momuPutLockTrace ∧
    opUsesOwnInstanceLock momuGetLockTrace ∧
    opUsesOwnInstanceLock momuContainsLockTrace ∧
    opUsesOwnInstanceLock momuRemoveLockTrace ∧
    (∀ o, xsfInsertLockTrace o =
      [LockEv.acquire LockId.xsfGlobalMtx, LockEv.release LockId.xsfGlobalMtx]) ∧
    (∀ o, xsfDeleteLockTrace o =
      [LockEv.acquire LockId.xsfGlobalMtx, LockEv.release LockId.xsfGlobalMtx]) ∧
    (∀ o, xsfSearchLockTrace o = []) :=
  ⟨fun _ => rfl, fun _ => rfl, fun _ => rfl, fun _ => rfl,
    fun _ => rfl, fun _ => rfl, fun _ => rfl⟩

/-- C7 (counterexample): the claim fails for the XSF half of the repository.
search_element performs no acquisition at all, and insert_element's lock does
not depend on the instance operated on — two distinct instances (tags 0 and
1) lock the very same object, which is not either instance's own mutex. -/
theorem claim_C7_counterexample :
    xsfSearchLockTrace 0 = [] ∧
    xsfInsertLockTrace 0 = xsfInsertLockTrace 1 ∧
    LockEv.acquire (LockId.instanceMutex 0) ∉ xsfInsertLockTrace 0 ∧
    LockEv.acquire (LockId.instanceMutex 0) ∉ xsfSearchLockTrace 0 := by
  refine ⟨rfl, rfl, ?_, ?_⟩ <;> decide

/- ===== Per-instance randomness (C8) ===== -/

/-- A mutating operation request against one momu SkipList instance (the
read-only operations touch no state, the generator state included). -/
inductive MOp (K V : Type) where
  | put : K → V → MOp K V
  | remove : K → MOp K V

/-- Run one operation on one instance. -/
def runOp (l : SkipList K V) : MOp K V → SkipList K V
  | MOp.put k v => l.put k v
  | MOp.remove k => (l.remove k).1

/-- Run a sequence of operations on one instance. -/
def runOps : SkipList K V → List (MOp K V) → SkipList K V
  | l, [] => l
  | l, op :: ops => runOps (runOp l op) ops

/-- Run a sequence of tagged operations on a pair of instances: a false tag
addresses the first instance, a true tag the second. -/
def runPairOps : SkipList K V → SkipList K V → List (Bool × MOp K V) →
    SkipList K V × SkipList K V
  | a, b, [] => (a, b)
  | a, b, (false, op) :: ops => runPairOps (runOp a op) b ops
  | a, b, (true, op) :: ops => runPairOps a (runOp b op) ops

/-- The operations of a tagged sequence addressed to one side. -/
def sideOps (side : Bool) : List (Bool × MOp K V) → List (MOp K V)
  | [] => []
  | (t, op) :: ops => if t == side then op :: sideOps side ops else sideOps side ops

/-- The generator function of a momu instance never changes: put and remove
only advance the instance's own read position. -/
theorem runOp_gen (l : SkipList K V) (op : MOp K V) : (runOp l op).gen_ = l.gen_ := by
  cases op with
  | put k v =>
    show (l.put k v).gen_ = l.gen_
    unfold SkipList.put
    dsimp only
    cases (l.find_predecessors k).getD 0 none with
    | none => rfl
    | some p0 =>
      dsimp only
      cases get_node_at_level_zero l.heap p0 k with
      | none => rfl
      | some existing => rfl
  | remove k =>
    show (l.remove k).1.gen_ = l.gen_
    unfold SkipList.remove
    dsimp only
    cases (l.find_predecessors k).getD 0 none with
    | none => rfl
    | some p0 =>
      dsimp only
      cases get_node_at_level_zero l.heap p0 k with
      | none => rfl
      | some nodeAddr => rfl

/-- C8 (claim theorem, amended): in the momu implementation the random
source is per-instance member state seeded at construction (the constructor
takes the seed and the coin stream lives in the SkipList state), so what a
sequence of interleaved operations on two instances does to each instance —
its node layout and its generator state included — depends only on the
subsequence of operations addressed to that instance: operations on one
instance cannot affect the random state, or anything else, of the other.
Moreover no operation replaces an instance's generator stream; it only
advances that instance's read position.  The XSF implementation does not
satisfy the claim (its constructor takes no seed and its levels are drawn
from the process-global rand stream). -/
theorem claim_C8_prng {K V : Type} [LinearOrder K] [Inhabited K] [Inhabited V]
    (a b : SkipList K V) (ops : List (Bool × MOp K V)) :
    runPairOps a b ops = (runOps a (sideOps false ops), runOps b (sideOps true ops)) ∧
    (∀ op, (runOp a op).gen_ = a.gen_) := by
  constructor
  · induction ops generalizing a b with
    | nil => rfl
    | cons hd tl ih =>
      obtain ⟨t, op⟩ := hd
      cases t with
      | false =>
        show runPairOps (runOp a op) b tl = _
        rw [ih (runOp a op) b]
        rfl
      | true =>
        show runPairOps a (runOp b op) tl = _
        rw [ih a (runOp b op)]
        rfl
  · exact fun op => runOp_gen a op

/-- C8 (counterexample): the XSF implementation draws levels from the
process-global rand stream and its constructor takes no seed, so operations
on one instance do change the behaviour of another.  With the global stream
whose first outcome is odd and all later outcomes even, inserting a key into
a fresh instance B gives its node level 1 (so skip_list_level_ becomes 1) —
but if another instance A consumes the stream first, the same insert into B
yields level 0.  The level of B's node, and B's resulting state, depend on
operations performed on A. -/
theorem claim_C8_counterexample :
    (((mkXSFSkipList 2 : XSFSkipList Nat Nat).insert_element 1 7
        (fun n => if n = 0 then 1 else 0) 0).1.skip_list_level_ = 1) ∧
    (((mkXSFSkipList 2 : XSFSkipList Nat Nat).insert_element 1 7
        (fun n => if n = 0 then 1 else 0)
        (((mkXSFSkipList 2 : XSFSkipList Nat Nat).insert_element 1 7
          (fun n => if n = 0 then 1 else 0) 0).2.2)).1.skip_list_level_ = 0) ∧
    (((mkXSFSkipList 2 : XSFSkipList Nat Nat).insert_element 1 7
        (fun n => if n = 0 then 1 else 0) 0).2.2 = 2) := by
  refine ⟨?_, ?_, ?_⟩ <;> decide

end SkipListVerify
